import Mathlib

/-!
# PKSUID: prefixed K-sortable unique identifiers

A shallow embedding of the Go package `pksuid` (`pksuid.go`, `base62.go`) and
theorems about its text codec, binary codec, base62 validator and SQL
boundary adapter.

Conventions of the embedding:

* a Go `byte` is `Fin 256`; a Go `string` and a Go `[]byte` are both `List Byte`
  (a Go string is an arbitrary byte sequence);
* the fixed arrays `[36]byte` (`PKSUID`), `[16]byte` (`Prefix`) and `[20]byte`
  (`ksuid.KSUID`) are lists bundled with their length;
* a Go result `(PKSUID, error)` is a pair `PKSUID × Option Error`, the second
  component `none` standing for the `nil` error.
-/

set_option maxRecDepth 100000

namespace Pksuid

/-- A Go byte. -/
abbrev Byte := Fin 256

/-! ## Constants (`pksuid.go`, lines 12-21) -/

/-- KSUIDs are 20 bytes when binary encoded. -/
def ksuidByteLength : Nat := 20

/-- The length of a KSUID when string (base62) encoded. -/
def ksuidStringEncodedLength : Nat := 27

/-- The Prefix maximum bytes length. -/
def prefixByteLength : Nat := 16

/-- PKSUIDs are conjunction of the Prefix and encoded KSUID. -/
def pksuidByteLength : Nat := ksuidByteLength + prefixByteLength

/-- Go builtin `copy(dst, src)`: the first `min (len dst) (len src)` elements of
`dst` are overwritten by those of `src`; the result is the new content of `dst`. -/
def copy (dst src : List Byte) : List Byte :=
  src.take dst.length ++ dst.drop src.length

/-- Go builtin `make([]byte, n)`: `n` zero bytes. -/
def zeros (n : Nat) : List Byte := List.replicate n 0

/-! ## The imported package `github.com/segmentio/ksuid`

`pksuid.go` calls `ksuid.Parse` and `KSUID.String` of this package, whose source is
outside the repository. Both are embedded by the value they compute: the string form
of a KSUID is its 20 bytes, read as a big-endian number, written with 27 digits of
base 62 over the alphabet `0-9A-Za-z`. The model is checked below against the
package's largest identifier `aWgEPTl1tmebfsQzFP4bxwgy80V` (twenty bytes `0xFF`). -/

namespace ksuid

/-- Modelled from the spec: the package `github.com/segmentio/ksuid` is imported by
`pksuid.go` and its source is not part of this repository. The errors of its string
decoder: the input has not 27 characters, or its value does not fit 20 bytes. -/
inductive KsuidError
  | errStrSize
  | errStrValue
  deriving DecidableEq

/-- Modelled from the spec: the imported type `ksuid.KSUID`, "a fixed 20-byte value". -/
structure KSUID where
  bytes : List Byte
  size : bytes.length = 20
  deriving DecidableEq

/-- Big-endian value of a digit sequence in the given base. -/
def beValue (base : Nat) (ds : List Nat) : Nat :=
  ds.foldl (fun acc d => acc * base + d) 0

/-- The `n` low digits of `v` in the given base, most significant first. -/
def beDigits (base : Nat) : Nat → Nat → List Nat
  | 0, _ => []
  | n + 1, v => beDigits base n (v / base) ++ [v % base]

/-- Modelled from the spec: the alphabet of the imported base62 codec,
`0-9A-Za-z` in this order (the symbol of a digit `d < 62`). -/
def base62Char (d : Nat) : Byte :=
  if d < 10 then ⟨(48 + d) % 256, Nat.mod_lt _ (by decide)⟩
  else if d < 36 then ⟨(65 + (d - 10)) % 256, Nat.mod_lt _ (by decide)⟩
  else ⟨(97 + (d - 36)) % 256, Nat.mod_lt _ (by decide)⟩

/-- Modelled from the spec: the digit value the imported decoder gives a symbol
(`base62Value` of the package). The decoder does not validate its input: a byte that
is neither a digit nor an upper-case letter is treated as a lower-case letter,
`36 + (digit - 'a')` in byte arithmetic, so that it wraps around modulo 256. -/
def base62Value (digit : Byte) : Nat :=
  if 48 ≤ digit.val ∧ digit.val ≤ 57 then digit.val - 48
  else if 65 ≤ digit.val ∧ digit.val ≤ 90 then 10 + (digit.val - 65)
  else (36 + (digit.val + 256 - 97)) % 256

/-- The byte of a number, reduced modulo 256. -/
def toByte (n : Nat) : Byte := ⟨n % 256, Nat.mod_lt _ (by decide)⟩

/-- Modelled from the spec: `ksuid.Parse`, "parse-from-27-char-base62-string". The
input must have exactly 27 characters; they are read as a base-62 number, most
significant digit first, which must fit the 20 bytes of a KSUID; the result is
that number in 20 big-endian bytes. -/
def Parse (s : List Byte) : Except KsuidError KSUID :=
  if s.length ≠ 27 then .error .errStrSize
  else
    let v := beValue 62 (s.map base62Value)
    if v < 2 ^ 160 then
      .ok ⟨(beDigits 256 20 v).map toByte, by simp [beDigits]⟩
    else .error .errStrValue

/-- Modelled from the spec: `KSUID.String`, "to-string (27-char base62)": the 20
bytes read as a big-endian number, written as 27 base-62 symbols, padded on the
left with the symbol of zero. -/
def KSUID.String (u : KSUID) : List Byte :=
  (beDigits 62 27 (beValue 256 (u.bytes.map Fin.val))).map base62Char

end ksuid

/-! ## Errors and values (`pksuid.go`, lines 23-49) -/

/-- The errors returned by the package. `ksuidParse` is the error built at
`pksuid.go:70` ("pksuid: failed to parse encoded KSUID: ..."), `scanType` the one
built at `pksuid.go:185` ("scan: unable to scan type ... into PKSUID"). -/
inductive Error
  | errMinSize
  | errMaxSize
  | errStrSize
  | errPrefixSize
  | ksuidParse (cause : ksuid.KsuidError)
  | scanType (typeName : String)
  deriving DecidableEq

/-- Prefix is the extension to the KSUID: `[prefixByteLength]byte`. -/
structure Prefix where
  bytes : List Byte
  size : bytes.length = prefixByteLength
  deriving DecidableEq

/-- PKSUIDs are 36 bytes: bytes 0-15 the prefix, bytes 16-35 the KSUID. -/
structure PKSUID where
  bytes : List Byte
  size : bytes.length = pksuidByteLength
  deriving DecidableEq

/-- Go `Nil = PKSUID{}`: the zero value, 36 zero bytes. -/
def Nil : PKSUID := ⟨zeros pksuidByteLength, by simp [zeros]⟩

/-- Go `NilPrefix = Prefix{}`. -/
def NilPrefix : Prefix := ⟨zeros prefixByteLength, by simp [zeros]⟩

/-- Go `nilKSUID = make([]byte, ksuidByteLength)`. -/
def nilKSUID : List Byte := zeros ksuidByteLength

/-- The statement `copy(p[prefixByteLength:], src)` on a PKSUID `p`. -/
def PKSUID.copyToKsuid (p : PKSUID) (src : List Byte) : PKSUID :=
  ⟨p.bytes.take prefixByteLength ++ copy (p.bytes.drop prefixByteLength) src, by
    have h := p.size
    simp only [copy, List.length_append, List.length_take, List.length_drop]
    simp only [pksuidByteLength, ksuidByteLength, prefixByteLength] at h ⊢
    omega⟩

/-- The statement `copy(p[:prefixByteLength], src)` on a PKSUID `p`. -/
def PKSUID.copyToPrefix (p : PKSUID) (src : List Byte) : PKSUID :=
  ⟨copy (p.bytes.take prefixByteLength) src ++ p.bytes.drop prefixByteLength, by
    have h := p.size
    simp only [copy, List.length_append, List.length_take, List.length_drop]
    simp only [pksuidByteLength, ksuidByteLength, prefixByteLength] at h ⊢
    omega⟩

/-! ## Helpers of `pksuid.go` -/

/-- Go `bytes.Index(b, []byte{c})` for a one-byte separator: the index of the first
occurrence of `c` in `b`, or `-1` when `c` does not occur. -/
def bytesIndex (b : List Byte) (c : Byte) : Int :=
  if c ∈ b then (b.indexOf c : Int) else -1

/-- trimAfterNullChar trims everything from the first occurrence of the null
character, including the character (`pksuid.go:240`). -/
def trimAfterNullChar (b : List Byte) : List Byte :=
  let i := bytesIndex b 0
  if i ≠ -1 then b.take i.toNat else b

/-- Go `Prefix.String` (`pksuid.go:40`). -/
def Prefix.String (p : Prefix) : List Byte :=
  trimAfterNullChar p.bytes

/-- PrefixBytes: raw byte representation of the prefix part, `p[:prefixByteLength]`. -/
def PKSUID.PrefixBytes (p : PKSUID) : List Byte :=
  p.bytes.take prefixByteLength

/-- Go `ksuidBytes`: `p[prefixByteLength:]`. -/
def PKSUID.ksuidBytes (p : PKSUID) : List Byte :=
  p.bytes.drop prefixByteLength

/-- IDBytes returns raw KSUID bytes. -/
def PKSUID.IDBytes (p : PKSUID) : List Byte :=
  p.ksuidBytes

/-- KSUID retrieves a native KSUID object: `uid := ksuid.KSUID{}` followed by
`copy(uid[:], p.ksuidBytes())`. -/
def PKSUID.KSUID (p : PKSUID) : ksuid.KSUID :=
  ⟨copy (zeros ksuidByteLength) p.ksuidBytes, by
    simp only [copy, zeros, List.length_append, List.length_take, List.length_drop,
      List.length_replicate, ksuidByteLength]
    omega⟩

/-- Prefix fetches a prefix part of the PKSUID: `prefx := Prefix{}` followed by
`copy(prefx[:], p.PrefixBytes())`. -/
def PKSUID.Prefix (p : PKSUID) : Pksuid.Prefix :=
  ⟨copy (zeros prefixByteLength) p.PrefixBytes, by
    simp only [copy, zeros, List.length_append, List.length_take, List.length_drop,
      List.length_replicate, prefixByteLength]
    omega⟩

/-- SetPrefix set prefix bytes: `copy(p[:prefixByteLength], prefix[:])`. The result is
the receiver after the call. -/
def PKSUID.SetPrefix (p : PKSUID) (pfx : Pksuid.Prefix) : PKSUID :=
  p.copyToPrefix pfx.bytes

/-- IsNil returns true if the KSUID part is "nil":
`bytes.Equal(p[prefixByteLength:], nilKSUID)`. -/
def PKSUID.IsNil (p : PKSUID) : Bool :=
  decide (p.bytes.drop prefixByteLength = nilKSUID)

/-- IsNilWithPrefix: `p == Nil`. -/
def PKSUID.IsNilWithPrefix (p : PKSUID) : Bool :=
  decide (p = Nil)

/-- String returns string representation of the PKSUID:
`string(trimAfterNullChar(p.PrefixBytes())) + p.KSUID().String()`. -/
def PKSUID.String (p : PKSUID) : List Byte :=
  trimAfterNullChar p.PrefixBytes ++ p.KSUID.String

/-- Bytes returns raw byte representation of PKSUID: `p[:]`. -/
def PKSUID.Bytes (p : PKSUID) : List Byte :=
  p.bytes

/-! ## Decoders (`pksuid.go`, lines 60-102) -/

/-- Parse decodes a string-encoded representation of a PKSUID object. -/
def Parse (s : List Byte) : PKSUID × Option Error :=
  if s.length < ksuidStringEncodedLength then (Nil, some Error.errStrSize)
  else
    let ksuidPart := s.drop (s.length - ksuidStringEncodedLength)
    match ksuid.Parse ksuidPart with
    | .error err => (Nil, some (Error.ksuidParse err))
    | .ok uid =>
      let prefixPart := s.take (s.length - ksuidStringEncodedLength)
      if prefixPart.length > prefixByteLength then (Nil, some Error.errPrefixSize)
      else
        let pksuid : PKSUID := ⟨zeros pksuidByteLength, by simp [zeros]⟩
        let pksuid := pksuid.copyToKsuid uid.bytes
        let pksuid := if prefixPart.length > 0 then pksuid.copyToPrefix prefixPart else pksuid
        (pksuid, none)

/-- FromBytes constructs a PKSUID from a binary representation. -/
def FromBytes (b : List Byte) : PKSUID × Option Error :=
  let pksuid : PKSUID := ⟨zeros pksuidByteLength, by simp [zeros]⟩
  if b.length < ksuidByteLength then (Nil, some Error.errMinSize)
  else if b.length > pksuidByteLength then (Nil, some Error.errMaxSize)
  else
    let pksuid := pksuid.copyToKsuid (b.drop (b.length - ksuidByteLength))
    let pksuid :=
      if b.length > ksuidByteLength then pksuid.copyToPrefix (b.take (b.length - ksuidByteLength))
      else pksuid
    (pksuid, none)

/-! ## Marshalling (`pksuid.go`, lines 130-155) -/

/-- Go `MarshalText`: `[]byte(p.String()), nil`. -/
def PKSUID.MarshalText (p : PKSUID) : List Byte × Option Error :=
  (p.String, none)

/-- Go `MarshalBinary`: `p.Bytes(), nil`. -/
def PKSUID.MarshalBinary (p : PKSUID) : List Byte × Option Error :=
  (p.Bytes, none)

/-- Go `UnmarshalText` on the receiver `p`: the receiver after the call and the error. -/
def PKSUID.UnmarshalText (p : PKSUID) (b : List Byte) : PKSUID × Option Error :=
  match Parse b with
  | (_, some err) => (p, some err)
  | (id, none) => (id, none)

/-- Go `UnmarshalBinary` on the receiver `p`: the receiver after the call and the error. -/
def PKSUID.UnmarshalBinary (p : PKSUID) (b : List Byte) : PKSUID × Option Error :=
  match FromBytes b with
  | (_, some err) => (p, some err)
  | (id, none) => (id, none)

/-! ## Base62 validator (`base62.go`) -/

/-- The keyed elements of the composite literal of `base62Map`, in source order. -/
def base62MapLiteral : List (Char × Char) :=
  [('0', '0'), ('5', '5'), ('A', 'A'), ('F', 'F'), ('K', 'K'), ('P', 'P'),
   ('1', '1'), ('6', '6'), ('B', 'B'), ('G', 'G'), ('L', 'L'), ('Q', 'Q'),
   ('2', '2'), ('7', '7'), ('C', 'C'), ('H', 'H'), ('M', 'M'), ('R', 'R'),
   ('3', '3'), ('8', '8'), ('D', 'D'), ('I', 'I'), ('N', 'N'), ('S', 'S'),
   ('4', '4'), ('9', '9'), ('E', 'E'), ('J', 'J'), ('O', 'O'), ('T', 'T'),
   ('U', 'U'), ('a', 'a'), ('g', 'g'), ('m', 'm'), ('s', 's'), ('y', 'y'),
   ('V', 'V'), ('b', 'b'), ('h', 'h'), ('n', 'n'), ('t', 't'), ('z', 'z'),
   ('W', 'W'), ('c', 'c'), ('i', 'i'), ('o', 'o'), ('u', 'u'),
   ('X', 'X'), ('d', 'd'), ('j', 'j'), ('p', 'p'), ('v', 'v'),
   ('Y', 'Y'), ('e', 'e'), ('k', 'k'), ('q', 'q'), ('w', 'w'),
   ('Z', 'Z'), ('f', 'f'), ('l', 'l'), ('r', 'r'), ('x', 'x')]

/-- Go `base62Map`, a `[256]byte` indexed by a byte: the element keyed by the index in
the literal, zero where the literal has no key. -/
def base62Map (i : Byte) : Byte :=
  match base62MapLiteral.find? (fun e => e.1.toNat == i.val) with
  | some e => ksuid.toByte e.2.toNat
  | none => 0

/-- The loop of `isBase62Bytes`: `for _, c := range b` with its early return. -/
def isBase62Loop : List Byte → Bool
  | [] => true
  | c :: cs => if base62Map c = 0 then false else isBase62Loop cs

/-- Go `isBase62Bytes` (`base62.go:17`). -/
def isBase62Bytes (b : List Byte) : Bool :=
  if b.length = 0 then false else isBase62Loop b

/-! ## SQL boundary (`pksuid.go`, lines 157-187) -/

/-- The `driver.Value`s that `Value` produces: the `nil` interface or a string. -/
inductive DriverValue
  | null
  | string (s : List Byte)
  deriving DecidableEq

/-- The dynamic type of the `interface{}` argument of `Scan`: `nil`, a `[]byte`, a
`string`, or a value of any other type (with the name of that type). -/
inductive ScanSrc
  | null
  | bytes (v : List Byte)
  | string (v : List Byte)
  | other (typeName : String)
  deriving DecidableEq

/-- Value converts the PKSUID into a SQL driver value. -/
def PKSUID.Value (p : PKSUID) : DriverValue × Option Error :=
  if p.IsNil then (DriverValue.null, none)
  else (DriverValue.string p.String, none)

/-- Scan implements the sql.Scanner interface: the receiver after the call and the
error. -/
def PKSUID.Scan (p : PKSUID) (src : ScanSrc) : PKSUID × Option Error :=
  match src with
  | .null => (Nil, none)
  | .bytes v =>
    if v.length > pksuidByteLength then p.UnmarshalText v
    else if v.length ≥ ksuidStringEncodedLength
        ∧ isBase62Bytes (v.drop (v.length - ksuidStringEncodedLength)) = true then
      p.UnmarshalText v
    else p.UnmarshalBinary v
  | .string v => p.UnmarshalText v
  | .other typeName => (p, some (Error.scanType typeName))

/-- The bytes of a string literal. -/
def str (s : String) : List Byte := s.toList.map (fun c => ksuid.toByte c.toNat)

/-! ## Sample values -/

/-- The 27-character KSUID string of the test table `parseTests`. -/
def sampleTail : List Byte := str "208bayYfCoFfqyLD4lZaZ8BvwaF"

/-- The KSUID that `sampleTail` encodes. -/
def sampleKsuid : ksuid.KSUID :=
  ⟨[14, 8, 93, 108, 227, 216, 14, 151, 129, 94, 109, 238, 145, 31, 147, 70, 107, 168, 36, 87],
    rfl⟩

/-- The PKSUID with the zero-padded prefix `prefix:` and the KSUID `sampleKsuid`. -/
def sampleId : PKSUID :=
  ⟨str "prefix:" ++ zeros 9 ++ sampleKsuid.bytes, by decide⟩

/-- A string whose head `a\x00b` holds a null byte, followed by `sampleTail`. -/
def nulHeadInput : List Byte := [97, 0, 98] ++ sampleTail

/-- A 27-character string whose last character `:` is not a base62 symbol. -/
def looseTailInput : List Byte := str "00000000000000000000000000:"

/-! ## Vocabulary of the specification -/

/-- One of the 62 ASCII characters `0-9`, `A-Z`, `a-z`. -/
def IsBase62Symbol (c : Byte) : Prop :=
  ('0'.toNat ≤ c.val ∧ c.val ≤ '9'.toNat) ∨ ('A'.toNat ≤ c.val ∧ c.val ≤ 'Z'.toNat)
    ∨ ('a'.toNat ≤ c.val ∧ c.val ≤ 'z'.toNat)

instance : DecidablePred IsBase62Symbol := fun c => by
  unfold IsBase62Symbol; infer_instance

/-- The test-table string with a head of 17 bytes `a`, followed by `sampleTail`. -/
def longHeadInput : List Byte := List.replicate 17 97 ++ sampleTail

/-- A byte slice reads as text to `Scan`: it is longer than 36 bytes, or it has at
least 27 bytes and its last 27 bytes are all base62 symbols. -/
def LooksLikeText (v : List Byte) : Prop :=
  36 < v.length ∨ (27 ≤ v.length ∧ ∀ c ∈ v.drop (v.length - 27), IsBase62Symbol c)

instance : DecidablePred LooksLikeText := fun v => by
  unfold LooksLikeText; infer_instance

/-- The scanner input a driver hands back for a stored `driver.Value`: the `nil`
interface stays `nil`, a string stays a string. -/
def DriverValue.toScanSrc : DriverValue → ScanSrc
  | .null => ScanSrc.null
  | .string s => ScanSrc.string s

/-- The PKSUID all of whose 36 bytes are the character `0` (byte 48). -/
def digitsId : PKSUID := ⟨List.replicate 36 48, by decide⟩

/-- The string of `n` characters `1` (byte 49), `strings.Repeat("1", n)` of the test
table `parseTests`. -/
def ones (n : Nat) : List Byte := List.replicate n 49

/-- The KSUID that the string of 27 characters `1` decodes to. -/
def onesKsuid : ksuid.KSUID :=
  ⟨[7, 31, 150, 47, 37, 136, 174, 255, 251, 47, 107, 146, 136, 98, 186, 227, 150, 243, 104,
    235], rfl⟩

/-- The prefix of `TestPrefixString`: `hello`, a null byte, `!`, then zero bytes. -/
def helloPrefix : Prefix := ⟨str "hello" ++ [0] ++ str "!" ++ zeros 9, by decide⟩

/-- The prefix of `TestSetPrefix`: `key_live`, then zero bytes. -/
def keyLivePrefix : Prefix := ⟨str "key_live" ++ zeros 8, by decide⟩

/-- A nil identifier with a non-zero prefix: `prefix:`, then 29 zero bytes. -/
def nilWithPrefix : PKSUID := ⟨str "prefix:" ++ zeros 29, by decide⟩



/-! ## Lists, `copy` and zero padding -/

theorem PKSUID_ext {p q : PKSUID} (h : p.bytes = q.bytes) : p = q := by
  cases p; cases q; cases h; rfl

theorem zeros_length (n : Nat) : (zeros n).length = n := by simp [zeros]

theorem copy_length (dst src : List Byte) : (copy dst src).length = dst.length := by
  simp only [copy, List.length_append, List.length_take, List.length_drop]
  omega

theorem copy_of_length_le (dst src : List Byte) (h : src.length ≤ dst.length) :
    copy dst src = src ++ dst.drop src.length := by
  simp [copy, List.take_of_length_le h]

theorem copy_of_length_eq (dst src : List Byte) (h : src.length = dst.length) :
    copy dst src = src := by
  rw [copy_of_length_le dst src (by omega), List.drop_of_length_le (by omega)]
  simp

theorem copy_zeros (n : Nat) (src : List Byte) (h : src.length ≤ n) :
    copy (zeros n) src = src ++ zeros (n - src.length) := by
  rw [copy_of_length_le _ _ (by simpa [zeros] using h)]
  simp [zeros]

/-- The freshly declared `PKSUID{}` after `copy(pksuid[prefixByteLength:], uid)` with
20 bytes `uid`, and after the optional `copy(pksuid[:prefixByteLength], head)`. -/
theorem build_bytes (head uid : List Byte) (hk : head.length ≤ 16) (hu : uid.length = 20)
    (z : PKSUID) (hz : z.bytes = zeros pksuidByteLength) (c : Prop) [Decidable c]
    (hc : ¬ c → head = []) :
    (if c then (z.copyToKsuid uid).copyToPrefix head else z.copyToKsuid uid).bytes
      = head ++ zeros (16 - head.length) ++ uid := by
  have h1 : (z.copyToKsuid uid).bytes = zeros 16 ++ uid := by
    simp only [PKSUID.copyToKsuid, hz, pksuidByteLength, ksuidByteLength, prefixByteLength]
    have : List.drop 16 (zeros (20 + 16)) = zeros 20 := by simp [zeros]
    rw [this, copy_of_length_eq _ _ (by simp [zeros, hu])]
    simp [zeros]
  have h2 : ((z.copyToKsuid uid).copyToPrefix head).bytes
      = head ++ zeros (16 - head.length) ++ uid := by
    simp only [PKSUID.copyToPrefix, h1, prefixByteLength]
    have e1 : List.take 16 (zeros 16 ++ uid) = zeros 16 := by
      rw [List.take_append_of_le_length (by simp [zeros])]; simp [zeros]
    have e2 : List.drop 16 (zeros 16 ++ uid) = uid := by
      rw [List.drop_append_of_le_length (by simp [zeros])]; simp [zeros]
    rw [e1, e2, copy_zeros _ _ hk]
  by_cases h : c
  · simp only [h, if_true]; exact h2
  · simp only [h, if_false]
    rw [h1, hc h]; simp


/-! ## The three outcomes of `Parse` and the two of `FromBytes` -/

theorem Parse_short (s : List Byte) (h : s.length < 27) :
    Parse s = (Nil, some Error.errStrSize) := by
  simp [Parse, ksuidStringEncodedLength, h]

theorem Parse_malformed (s : List Byte) (h : 27 ≤ s.length) (e : ksuid.KsuidError)
    (he : ksuid.Parse (s.drop (s.length - 27)) = .error e) :
    Parse s = (Nil, some (Error.ksuidParse e)) := by
  have h1 : ¬ s.length < 27 := by omega
  simp [Parse, ksuidStringEncodedLength, h1, he]

theorem Parse_long (s : List Byte) (h : 27 ≤ s.length) (u : ksuid.KSUID)
    (hu : ksuid.Parse (s.drop (s.length - 27)) = .ok u) (hp : 16 < s.length - 27) :
    Parse s = (Nil, some Error.errPrefixSize) := by
  have h1 : ¬ s.length < 27 := by omega
  have h2 : 16 < min (s.length - 27) s.length := by omega
  simp only [Parse, ksuidStringEncodedLength, prefixByteLength, h1, hu, if_false,
    List.length_take, gt_iff_lt, h2, if_true]

theorem Parse_accept (s : List Byte) (h : 27 ≤ s.length) (u : ksuid.KSUID)
    (hu : ksuid.Parse (s.drop (s.length - 27)) = .ok u) (hp : s.length - 27 ≤ 16) :
    (Parse s).2 = none ∧
      (Parse s).1.bytes
        = s.take (s.length - 27) ++ zeros (16 - (s.length - 27)) ++ u.bytes := by
  have h1 : ¬ s.length < 27 := by omega
  have h2 : ¬ 16 < min (s.length - 27) s.length := by omega
  have hl : (s.take (s.length - 27)).length = s.length - 27 := by
    simp only [List.length_take]; omega
  simp only [Parse, ksuidStringEncodedLength, prefixByteLength, h1, hu, if_false,
    List.length_take, gt_iff_lt, h2, true_and]
  have hb := build_bytes (s.take (s.length - 27)) u.bytes (by omega) u.size
    ⟨zeros pksuidByteLength, by simp [zeros]⟩ rfl (0 < (s.take (s.length - 27)).length)
    (fun hc => List.eq_nil_of_length_eq_zero (by omega))
  simp only [List.length_take] at hb
  have hm : min (s.length - 27) s.length = s.length - 27 := by omega
  rw [hm] at hb ⊢
  exact hb

theorem FromBytes_short (b : List Byte) (h : b.length < 20) :
    FromBytes b = (Nil, some Error.errMinSize) := by
  simp [FromBytes, ksuidByteLength, h]

theorem FromBytes_long (b : List Byte) (h : 36 < b.length) :
    FromBytes b = (Nil, some Error.errMaxSize) := by
  have h1 : ¬ b.length < 20 := by omega
  simp [FromBytes, ksuidByteLength, pksuidByteLength, prefixByteLength, h1, h]

theorem FromBytes_accept (b : List Byte) (h1 : 20 ≤ b.length) (h2 : b.length ≤ 36) :
    (FromBytes b).2 = none ∧
      (FromBytes b).1.bytes
        = b.take (b.length - 20) ++ zeros (16 - (b.length - 20)) ++ b.drop (b.length - 20) := by
  have g1 : ¬ b.length < 20 := by omega
  have g2 : ¬ 20 + 16 < b.length := by omega
  have hl : (b.take (b.length - 20)).length = b.length - 20 := by
    simp only [List.length_take]; omega
  have hd : (b.drop (b.length - 20)).length = 20 := by
    simp only [List.length_drop]; omega
  simp only [FromBytes, ksuidByteLength, pksuidByteLength, prefixByteLength, g1, g2,
    if_false, gt_iff_lt, true_and]
  have hb := build_bytes (b.take (b.length - 20)) (b.drop (b.length - 20)) (by omega) hd
    ⟨zeros pksuidByteLength, by simp [zeros]⟩ rfl (20 < b.length)
    (fun hc => List.eq_nil_of_length_eq_zero (by omega))
  rw [hl] at hb
  exact hb


/-! ## The base62 codec of the imported KSUID package -/

namespace ksuid

theorem beDigits_length (base n v : Nat) : (beDigits base n v).length = n := by
  induction n generalizing v with
  | zero => rfl
  | succ n ih => simp [beDigits, ih]

theorem beValue_snoc (base : Nat) (ds : List Nat) (d : Nat) :
    beValue base (ds ++ [d]) = beValue base ds * base + d := by
  simp [beValue, List.foldl_append]

theorem beValue_beDigits (base n v : Nat) :
    beValue base (beDigits base n v) = v % base ^ n := by
  induction n generalizing v with
  | zero => simp [beDigits, beValue, Nat.mod_one]
  | succ n ih =>
    rw [beDigits, beValue_snoc, ih, Nat.pow_succ', Nat.mod_mul]
    rw [Nat.mul_comm, Nat.add_comm]

theorem beDigits_lt (base : Nat) (hb : 0 < base) (n v : Nat) :
    ∀ d ∈ beDigits base n v, d < base := by
  induction n generalizing v with
  | zero => simp [beDigits]
  | succ n ih =>
    intro d hd
    simp only [beDigits, List.mem_append, List.mem_singleton] at hd
    rcases hd with hd | hd
    · exact ih _ d hd
    · subst hd; exact Nat.mod_lt _ hb

theorem beValue_lt (base : Nat) (ds : List Nat) (h : ∀ d ∈ ds, d < base) :
    beValue base ds < base ^ ds.length := by
  induction ds using List.reverseRecOn with
  | nil => simp [beValue]
  | append_singleton l a ih =>
    have hl : ∀ d ∈ l, d < base := fun d hd => h d (by simp [hd])
    have ha : a < base := h a (by simp)
    have h1 := ih hl
    rw [beValue_snoc, List.length_append, List.length_singleton, Nat.pow_succ]
    calc beValue base l * base + a < beValue base l * base + base := by omega
      _ = (beValue base l + 1) * base := by ring
      _ ≤ base ^ l.length * base := Nat.mul_le_mul_right _ h1

theorem beDigits_beValue (base : Nat) (ds : List Nat) (h : ∀ d ∈ ds, d < base) :
    beDigits base ds.length (beValue base ds) = ds := by
  induction ds using List.reverseRecOn with
  | nil => rfl
  | append_singleton l a ih =>
    have hl : ∀ d ∈ l, d < base := fun d hd => h d (by simp [hd])
    have ha : a < base := h a (by simp)
    have hb : 0 < base := by omega
    rw [List.length_append, List.length_singleton, beDigits, beValue_snoc]
    have e1 : (beValue base l * base + a) / base = beValue base l := by
      rw [Nat.mul_comm, Nat.mul_add_div hb, Nat.div_eq_of_lt ha, Nat.add_zero]
    have e2 : (beValue base l * base + a) % base = a := by
      rw [Nat.mul_comm, Nat.mul_add_mod, Nat.mod_eq_of_lt ha]
    rw [e1, e2, ih hl]

theorem base62Value_base62Char (d : Nat) (h : d < 62) : base62Value (base62Char d) = d := by
  have key : ∀ i : Fin 62, base62Value (base62Char i.val) = i.val := by decide
  exact key ⟨d, h⟩

theorem base62Char_base62Value (c : Byte) (h : IsBase62Symbol c) :
    base62Char (base62Value c) = c := by
  have key : ∀ i : Byte, IsBase62Symbol i → base62Char (base62Value i) = i := by decide
  exact key c h

theorem base62Value_lt (c : Byte) (h : IsBase62Symbol c) : base62Value c < 62 := by
  have key : ∀ i : Byte, IsBase62Symbol i → base62Value i < 62 := by decide
  exact key c h

theorem base62Char_symbol (d : Nat) (h : d < 62) : IsBase62Symbol (base62Char d) := by
  have key : ∀ i : Fin 62, IsBase62Symbol (base62Char i.val) := by decide
  exact key ⟨d, h⟩


theorem KSUID_ext {u w : KSUID} (h : u.bytes = w.bytes) : u = w := by
  cases u; cases w; cases h; rfl

theorem toByte_val (c : Byte) : toByte c.val = c := by
  apply Fin.ext
  simp [toByte, Nat.mod_eq_of_lt c.isLt]

theorem map_toByte_val (l : List Byte) : (l.map Fin.val).map toByte = l := by
  induction l with
  | nil => rfl
  | cons a l ih =>
    simp only [List.map_cons, toByte_val] at ih ⊢
    rw [ih]

theorem map_val_toByte (ds : List Nat) (h : ∀ d ∈ ds, d < 256) :
    (ds.map toByte).map Fin.val = ds := by
  induction ds with
  | nil => rfl
  | cons a l ih =>
    have ha : a < 256 := h a (by simp)
    have hl : ∀ d ∈ l, d < 256 := fun d hd => h d (by simp [hd])
    simp only [List.map_cons, List.cons.injEq]
    exact ⟨by simp [toByte, Nat.mod_eq_of_lt ha], ih hl⟩

theorem map_value_char (ds : List Nat) (h : ∀ d ∈ ds, d < 62) :
    (ds.map base62Char).map base62Value = ds := by
  induction ds with
  | nil => rfl
  | cons a l ih =>
    have ha : a < 62 := h a (by simp)
    have hl : ∀ d ∈ l, d < 62 := fun d hd => h d (by simp [hd])
    simp only [List.map_cons, List.cons.injEq]
    exact ⟨base62Value_base62Char a ha, ih hl⟩

theorem map_char_value (t : List Byte) (h : ∀ c ∈ t, IsBase62Symbol c) :
    (t.map base62Value).map base62Char = t := by
  induction t with
  | nil => rfl
  | cons a l ih =>
    have ha : IsBase62Symbol a := h a (by simp)
    have hl : ∀ c ∈ l, IsBase62Symbol c := fun c hc => h c (by simp [hc])
    simp only [List.map_cons, List.cons.injEq]
    exact ⟨base62Char_base62Value a ha, ih hl⟩

/-- The number held by a KSUID fits 160 bits. -/
theorem KSUID.value_lt (u : KSUID) : beValue 256 (u.bytes.map Fin.val) < 2 ^ 160 := by
  have h := beValue_lt 256 (u.bytes.map Fin.val) (by
    intro d hd
    obtain ⟨c, _, rfl⟩ := List.mem_map.mp hd
    exact c.isLt)
  rw [List.length_map, u.size] at h
  calc beValue 256 (u.bytes.map Fin.val) < 256 ^ 20 := h
    _ = 2 ^ 160 := by norm_num

theorem KSUID_String_length (u : KSUID) : u.String.length = 27 := by
  simp [KSUID.String, beDigits_length]

theorem KSUID_String_symbols (u : KSUID) : ∀ c ∈ u.String, IsBase62Symbol c := by
  intro c hc
  obtain ⟨d, hd, rfl⟩ := List.mem_map.mp hc
  exact base62Char_symbol d (beDigits_lt 62 (by decide) _ _ d hd)

/-- Decoding the string form of a KSUID gives the KSUID back. -/
theorem Parse_String (u : KSUID) : Parse u.String = .ok u := by
  have hv := KSUID.value_lt u
  have h62 : (2 : Nat) ^ 160 < 62 ^ 27 := by norm_num
  have hs : (u.String).map base62Value = beDigits 62 27 (beValue 256 (u.bytes.map Fin.val)) :=
    map_value_char _ (beDigits_lt 62 (by decide) _ _)
  have hval : beValue 62 ((u.String).map base62Value) = beValue 256 (u.bytes.map Fin.val) := by
    rw [hs, beValue_beDigits]
    exact Nat.mod_eq_of_lt (lt_trans hv h62)
  have hd : beDigits 256 20 (beValue 256 (u.bytes.map Fin.val)) = u.bytes.map Fin.val := by
    have h := beDigits_beValue 256 (u.bytes.map Fin.val) (by
      intro d hd
      obtain ⟨c, _, rfl⟩ := List.mem_map.mp hd
      exact c.isLt)
    rwa [List.length_map, u.size] at h
  have hl : u.String.length = 27 := KSUID_String_length u
  have hv2 : beValue 62 (u.String.map base62Value) < 2 ^ 160 := by rw [hval]; exact hv
  unfold Parse
  rw [if_neg (not_not_intro hl)]
  dsimp only
  rw [if_pos hv2]
  refine congrArg Except.ok (KSUID_ext ?_)
  dsimp only
  rw [hval, hd, map_toByte_val]

/-- Encoding what a string of 27 base62 symbols decodes to gives the string back. -/
theorem String_of_Parse (t : List Byte) (u : KSUID) (h : Parse t = .ok u)
    (hsym : ∀ c ∈ t, IsBase62Symbol c) : u.String = t := by
  unfold Parse at h
  by_cases hl : t.length = 27
  · simp only [hl, ne_eq, not_true_eq_false, if_false] at h
    by_cases hv : beValue 62 (t.map base62Value) < 2 ^ 160
    · simp only [hv, if_true, Except.ok.injEq] at h
      have hdig : ∀ d ∈ t.map base62Value, d < 62 := by
        intro d hd
        obtain ⟨c, hc, rfl⟩ := List.mem_map.mp hd
        exact base62Value_lt c (hsym c hc)
      have hb : u.bytes = (beDigits 256 20 (beValue 62 (t.map base62Value))).map toByte := by
        rw [← h]
      have h1 : u.bytes.map Fin.val = beDigits 256 20 (beValue 62 (t.map base62Value)) := by
        rw [hb]; exact map_val_toByte _ (beDigits_lt 256 (by decide) _ _)
      have h2 : beValue 256 (u.bytes.map Fin.val) = beValue 62 (t.map base62Value) := by
        rw [h1, beValue_beDigits]
        exact Nat.mod_eq_of_lt (by
          calc beValue 62 (t.map base62Value) < 2 ^ 160 := hv
            _ = 256 ^ 20 := by norm_num)
      have h3 := beDigits_beValue 62 (t.map base62Value) hdig
      rw [List.length_map, hl] at h3
      simp only [KSUID.String, h2, h3]
      exact map_char_value t hsym
    · rw [if_neg hv] at h
      cases h
  · rw [if_pos hl] at h
    cases h

/-- The largest KSUID string of the package decodes to twenty bytes `0xFF`, and the next
string is rejected. -/
theorem Parse_max :
    (Parse (str "aWgEPTl1tmebfsQzFP4bxwgy80V")).toOption.map KSUID.bytes
        = some (List.replicate 20 255) ∧
      Parse (str "aWgEPTl1tmebfsQzFP4bxwgy80W") = .error KsuidError.errStrValue := by
  constructor
  · rfl
  · rfl

end ksuid


/-! ## Truncation at the first null byte -/

theorem trimAfterNullChar_nil : trimAfterNullChar [] = [] := by
  simp [trimAfterNullChar, bytesIndex]

theorem trimAfterNullChar_zero (l : List Byte) : trimAfterNullChar (0 :: l) = [] := by
  simp [trimAfterNullChar, bytesIndex]

theorem trimAfterNullChar_cons (a : Byte) (l : List Byte) (ha : a ≠ 0) :
    trimAfterNullChar (a :: l) = a :: trimAfterNullChar l := by
  have ha' : (0 : Byte) ≠ a := fun h => ha h.symm
  by_cases h0 : (0 : Byte) ∈ l
  · have hm : (0 : Byte) ∈ a :: l := List.mem_cons_of_mem _ h0
    have hi : List.indexOf (0 : Byte) (a :: l) = List.indexOf (0 : Byte) l + 1 :=
      List.indexOf_cons_ne _ ha
    have e1 : ((List.indexOf (0 : Byte) l + 1 : Nat) : Int) ≠ -1 := by omega
    have e2 : ((List.indexOf (0 : Byte) l : Nat) : Int) ≠ -1 := by omega
    simp only [trimAfterNullChar, bytesIndex, hm, h0, if_true, hi, e1, e2, ne_eq,
      not_false_eq_true, Int.toNat_ofNat, List.take_succ_cons]
  · have hm : (0 : Byte) ∉ a :: l := by
      intro h
      rcases List.mem_cons.mp h with h | h
      · exact ha' h
      · exact h0 h
    simp [trimAfterNullChar, bytesIndex, hm, h0]

/-- A run of non-zero bytes followed by zero padding is cut at the padding. -/
theorem trimAfterNullChar_padded (head : List Byte) (n : Nat) (h : ∀ b ∈ head, b ≠ 0) :
    trimAfterNullChar (head ++ zeros n) = head := by
  induction head with
  | nil =>
    cases n with
    | zero => simpa [zeros] using trimAfterNullChar_nil
    | succ n => simpa [zeros, List.replicate_succ] using trimAfterNullChar_zero _
  | cons a l ih =>
    have ha : a ≠ 0 := h a (by simp)
    have hl : ∀ b ∈ l, b ≠ 0 := fun b hb => h b (by simp [hb])
    rw [List.cons_append, trimAfterNullChar_cons a _ ha, ih hl]

/-! ## Reading back a PKSUID laid out as head, padding, KSUID -/

theorem PrefixBytes_of_layout (p : PKSUID) (head uid : List Byte) (hk : head.length ≤ 16)
    (hp : p.bytes = head ++ zeros (16 - head.length) ++ uid) :
    p.PrefixBytes = head ++ zeros (16 - head.length) := by
  have hl : (head ++ zeros (16 - head.length)).length = 16 := by
    simp only [List.length_append, zeros_length]; omega
  rw [PKSUID.PrefixBytes, hp, prefixByteLength, List.take_left' hl]

theorem ksuidBytes_of_layout (p : PKSUID) (head uid : List Byte) (hk : head.length ≤ 16)
    (hp : p.bytes = head ++ zeros (16 - head.length) ++ uid) :
    p.ksuidBytes = uid := by
  have hl : (head ++ zeros (16 - head.length)).length = 16 := by
    simp only [List.length_append, zeros_length]; omega
  rw [PKSUID.ksuidBytes, hp, prefixByteLength, List.drop_left' hl]

theorem ksuidBytes_length (p : PKSUID) : p.ksuidBytes.length = 20 := by
  have h := p.size
  simp only [PKSUID.ksuidBytes, List.length_drop, prefixByteLength, pksuidByteLength,
    ksuidByteLength] at h ⊢
  omega

theorem PrefixBytes_length (p : PKSUID) : p.PrefixBytes.length = 16 := by
  have h := p.size
  simp only [PKSUID.PrefixBytes, List.length_take, prefixByteLength, pksuidByteLength,
    ksuidByteLength] at h ⊢
  omega

theorem KSUID_bytes (p : PKSUID) : p.KSUID.bytes = p.ksuidBytes := by
  simp only [PKSUID.KSUID]
  exact copy_of_length_eq _ _ (by rw [ksuidBytes_length, zeros_length, ksuidByteLength])

theorem bytes_split (p : PKSUID) : p.bytes = p.PrefixBytes ++ p.ksuidBytes := by
  simp [PKSUID.PrefixBytes, PKSUID.ksuidBytes]

theorem PKSUID_String_length (p : PKSUID) :
    p.String.length = (trimAfterNullChar p.PrefixBytes).length + 27 := by
  simp [PKSUID.String, ksuid.KSUID_String_length]


/-! ## Round trips -/

/-- A prefix made of `k` non-zero bytes followed by zero bytes is its first `k` bytes
followed by padding. -/
theorem canonical_prefix_split (p : PKSUID) (k : Nat) (hk : k ≤ 16)
    (hz : ∀ b ∈ p.PrefixBytes.drop k, b = 0) :
    (p.PrefixBytes.take k).length = k ∧
      p.PrefixBytes = p.PrefixBytes.take k ++ zeros (16 - (p.PrefixBytes.take k).length) := by
  have hl := PrefixBytes_length p
  have h1 : (p.PrefixBytes.take k).length = k := by
    simp only [List.length_take]; omega
  refine ⟨h1, ?_⟩
  have h2 : p.PrefixBytes.drop k = zeros (16 - k) := by
    rw [zeros, List.eq_replicate_iff]
    exact ⟨by simp only [List.length_drop]; omega, hz⟩
  rw [h1, ← h2, List.take_append_drop]

/-- Parsing a head of at most 16 bytes followed by the string form of a KSUID. -/
theorem Parse_head_String (head : List Byte) (u : ksuid.KSUID) (hk : head.length ≤ 16) :
    (Parse (head ++ u.String)).2 = none ∧
      (Parse (head ++ u.String)).1.bytes = head ++ zeros (16 - head.length) ++ u.bytes := by
  have hs := ksuid.KSUID_String_length u
  have hlen : (head ++ u.String).length - 27 = head.length := by
    simp only [List.length_append, hs]; omega
  have h := Parse_accept (head ++ u.String) (by simp only [List.length_append, hs]; omega) u
    (by rw [hlen, List.drop_left]; exact ksuid.Parse_String u) (by omega)
  rwa [hlen, List.take_left] at h

/-- C1. Text round trip: for every PKSUID `id` whose 16-byte prefix is canonical (some
number `k ≤ 16` of non-zero bytes followed only by zero bytes), `Parse(id.String())`
returns no error and a value equal to `id`; equivalently, on any receiver,
`UnmarshalText(MarshalText(id))` returns no error and restores `id`. -/
theorem C1_text_round_trip (id : PKSUID) (k : Nat) (hk : k ≤ 16)
    (hnz : ∀ b ∈ id.PrefixBytes.take k, b ≠ 0) (hz : ∀ b ∈ id.PrefixBytes.drop k, b = 0) :
    Parse id.String = (id, none) ∧ id.MarshalText.2 = none ∧
      ∀ p : PKSUID, p.UnmarshalText id.MarshalText.1 = (id, none) := by
  obtain ⟨hlen, hsplit⟩ := canonical_prefix_split id k hk hz
  have hstr : id.String = id.PrefixBytes.take k ++ id.KSUID.String := by
    rw [PKSUID.String]
    conv_lhs => rw [hsplit]
    rw [trimAfterNullChar_padded _ _ hnz]
  have hP := Parse_head_String (id.PrefixBytes.take k) id.KSUID (by omega)
  rw [← hstr, KSUID_bytes, ← hsplit, ← bytes_split] at hP
  have hparse : Parse id.String = (id, none) :=
    Prod.ext (PKSUID_ext hP.2) hP.1
  refine ⟨hparse, rfl, fun p => ?_⟩
  simp only [PKSUID.MarshalText, PKSUID.UnmarshalText, hparse]

/-- C2. Binary round trip: for every PKSUID `id`, whatever its 36 bytes,
`FromBytes(id.Bytes())` returns no error and a value equal to `id`; equivalently, on
any receiver, `UnmarshalBinary(MarshalBinary(id))` restores `id`, and `MarshalBinary`
of the restored value equals `id.Bytes()`. -/
theorem C2_binary_round_trip (id : PKSUID) :
    FromBytes id.Bytes = (id, none) ∧ id.MarshalBinary.2 = none ∧
      ∀ p : PKSUID, p.UnmarshalBinary id.MarshalBinary.1 = (id, none) ∧
        (p.UnmarshalBinary id.MarshalBinary.1).1.MarshalBinary = (id.Bytes, none) := by
  have hsz : id.bytes.length = 36 := id.size
  have h := FromBytes_accept id.bytes (by omega) (by omega)
  have hfb : FromBytes id.Bytes = (id, none) := by
    refine Prod.ext (PKSUID_ext ?_) h.1
    have e := h.2
    rw [hsz] at e
    simpa [zeros] using e
  refine ⟨hfb, rfl, fun p => ?_⟩
  have hu : p.UnmarshalBinary id.MarshalBinary.1 = (id, none) := by
    simp only [PKSUID.MarshalBinary, PKSUID.UnmarshalBinary, hfb]
  exact ⟨hu, by rw [hu]; rfl⟩


/-- C1, at `sampleId` whose prefix is the seven bytes of `prefix:` and nine zeros. -/
theorem C1_text_round_trip_witness :
    7 ≤ 16 ∧ (∀ b ∈ sampleId.PrefixBytes.take 7, b ≠ 0) ∧
      (∀ b ∈ sampleId.PrefixBytes.drop 7, b = 0) ∧
      (Parse sampleId.String = (sampleId, none) ∧ sampleId.MarshalText.2 = none ∧
        ∀ p : PKSUID, p.UnmarshalText sampleId.MarshalText.1 = (sampleId, none)) :=
  ⟨by decide, by decide, by decide,
    C1_text_round_trip sampleId 7 (by decide) (by decide) (by decide)⟩

/-! ## The outcomes of `Parse`, exhaustively -/

/-- Every call of `Parse` ends in exactly one of its four return statements. -/
theorem Parse_cases (s : List Byte) :
    (s.length < 27 ∧ Parse s = (Nil, some Error.errStrSize)) ∨
    (27 ≤ s.length ∧ ∃ e, ksuid.Parse (s.drop (s.length - 27)) = .error e ∧
        Parse s = (Nil, some (Error.ksuidParse e))) ∨
    (27 ≤ s.length ∧ ∃ u, ksuid.Parse (s.drop (s.length - 27)) = .ok u ∧
        16 < s.length - 27 ∧ Parse s = (Nil, some Error.errPrefixSize)) ∨
    (27 ≤ s.length ∧ ∃ u, ksuid.Parse (s.drop (s.length - 27)) = .ok u ∧
        s.length - 27 ≤ 16 ∧ (Parse s).2 = none ∧
        (Parse s).1.bytes = s.take (s.length - 27) ++ zeros (16 - (s.length - 27)) ++ u.bytes) := by
  by_cases h : s.length < 27
  · exact Or.inl ⟨h, Parse_short s h⟩
  · have h27 : 27 ≤ s.length := by omega
    cases hk : ksuid.Parse (s.drop (s.length - 27)) with
    | error e => exact Or.inr (Or.inl ⟨h27, e, rfl, Parse_malformed s h27 e hk⟩)
    | ok u =>
      by_cases hp : 16 < s.length - 27
      · exact Or.inr (Or.inr (Or.inl ⟨h27, u, rfl, hp, Parse_long s h27 u hk hp⟩))
      · have hp' : s.length - 27 ≤ 16 := by omega
        obtain ⟨h1, h2⟩ := Parse_accept s h27 u hk hp'
        exact Or.inr (Or.inr (Or.inr ⟨h27, u, rfl, hp', h1, h2⟩))

/-- C3, as stated, fails: `Parse` accepts `a\x00b208bayYfCoFfqyLD4lZaZ8BvwaF`, whose
head holds a null byte, and the string form of the result is
`a208bayYfCoFfqyLD4lZaZ8BvwaF`; it accepts `00000000000000000000000000:`, whose last
character is no base62 symbol, and the string form of the result is
`000000000000000000000000045`. -/
theorem C3_counterexample :
    ((Parse nulHeadInput).2 = none ∧
      (Parse nulHeadInput).1.String = str "a208bayYfCoFfqyLD4lZaZ8BvwaF" ∧
      (Parse nulHeadInput).1.String ≠ nulHeadInput) ∧
    ((Parse looseTailInput).2 = none ∧
      (Parse looseTailInput).1.String = str "000000000000000000000000045" ∧
      (Parse looseTailInput).1.String ≠ looseTailInput) := by
  decide

/-- C3, amended. `Parse` then `String` is the identity on accepted input whose head
holds no null byte and whose last 27 bytes are base62 symbols: for every string `s`
for which `Parse(s)` returns no error, whose bytes before the last 27 are all non-zero
and whose last 27 bytes are all among `0-9A-Za-z`, `Parse(s).String()` equals `s`. -/
theorem C3_parse_then_string (s : List Byte) (hok : (Parse s).2 = none)
    (hhead : ∀ b ∈ s.take (s.length - 27), b ≠ 0)
    (htail : ∀ c ∈ s.drop (s.length - 27), IsBase62Symbol c) :
    (Parse s).1.String = s := by
  rcases Parse_cases s with ⟨_, h⟩ | ⟨_, e, _, h⟩ | ⟨_, u, _, _, h⟩ | ⟨h27, u, hu, hp, _, hb⟩
  · rw [h] at hok; cases hok
  · rw [h] at hok; cases hok
  · rw [h] at hok; cases hok
  · have hl : (s.take (s.length - 27)).length = s.length - 27 := by
      simp only [List.length_take]; omega
    replace hb : (Parse s).1.bytes = s.take (s.length - 27)
        ++ zeros (16 - (s.take (s.length - 27)).length) ++ u.bytes := by rw [hl]; exact hb
    have hpre := PrefixBytes_of_layout (Parse s).1 (s.take (s.length - 27)) u.bytes
      (by omega) hb
    have hks := ksuidBytes_of_layout (Parse s).1 (s.take (s.length - 27)) u.bytes
      (by omega) hb
    have hK : (Parse s).1.KSUID = u :=
      ksuid.KSUID_ext (by rw [KSUID_bytes, hks])
    rw [PKSUID.String, hpre, trimAfterNullChar_padded _ _ hhead, hK,
      ksuid.String_of_Parse _ u hu htail, List.take_append_drop]

/-- C3 amended, at the accepted string `prefix:208bayYfCoFfqyLD4lZaZ8BvwaF`. -/
theorem C3_parse_then_string_witness :
    (Parse (str "prefix:" ++ sampleTail)).2 = none ∧
      (∀ b ∈ (str "prefix:" ++ sampleTail).take ((str "prefix:" ++ sampleTail).length - 27),
        b ≠ 0) ∧
      (∀ c ∈ (str "prefix:" ++ sampleTail).drop ((str "prefix:" ++ sampleTail).length - 27),
        IsBase62Symbol c) ∧
      (Parse (str "prefix:" ++ sampleTail)).1.String = str "prefix:" ++ sampleTail :=
  ⟨by decide, by decide, by decide,
    C3_parse_then_string (str "prefix:" ++ sampleTail) (by decide) (by decide) (by decide)⟩


/-- C4. `Parse` fails exactly in three cases, checked in this order: `len(s) < 27` gives
`errStrSize` (in particular for the empty string); otherwise the last 27 characters
being rejected by the KSUID string decoder gives the malformed-ID error built from the
decoder's error; otherwise a head of `len(s) - 27 > 16` bytes gives `errPrefixSize`.
In every other case, a head of exactly 16 bytes and an empty head included, `Parse`
succeeds; and on every failure the returned value is the all-zero `Nil`. -/
theorem C4_parse_failures (s : List Byte) :
    ((Parse s).2 = some Error.errStrSize ↔ s.length < 27) ∧
    (∀ e, (Parse s).2 = some (Error.ksuidParse e) ↔
      27 ≤ s.length ∧ ksuid.Parse (s.drop (s.length - 27)) = .error e) ∧
    ((Parse s).2 = some Error.errPrefixSize ↔
      27 ≤ s.length ∧ (∃ u, ksuid.Parse (s.drop (s.length - 27)) = .ok u) ∧
        16 < s.length - 27) ∧
    ((Parse s).2 = none ↔
      27 ≤ s.length ∧ (∃ u, ksuid.Parse (s.drop (s.length - 27)) = .ok u) ∧
        s.length - 27 ≤ 16) ∧
    ((Parse s).2 = none ∨ (Parse s).1 = Nil) ∧
    Parse [] = (Nil, some Error.errStrSize) := by
  refine ⟨?_, ?_, ?_, ?_, ?_, Parse_short [] (by simp)⟩
  all_goals
    rcases Parse_cases s with ⟨hl, h⟩ | ⟨hl, e0, hk, h⟩ | ⟨hl, u, hk, hp, h⟩ |
      ⟨hl, u, hk, hp, h, _⟩
  · simp [h, hl]
  · simp only [h]; constructor
    · intro he; cases he
    · intro he; omega
  · simp only [h]; constructor
    · intro he; cases he
    · intro he; omega
  · simp only [h]; constructor
    · intro he; cases he
    · intro he; omega
  · intro e; simp only [h]; constructor
    · intro he; cases he
    · intro he; omega
  · intro e; simp only [h, hk, Option.some.injEq, Error.ksuidParse.injEq, Except.error.injEq]
    exact ⟨fun he => ⟨hl, he⟩, fun he => he.2⟩
  · intro e; simp only [h, hk]; constructor
    · intro he; cases he
    · intro he; cases he.2
  · intro e; simp only [h, hk]; constructor
    · intro he; cases he
    · intro he; cases he.2
  · simp only [h]; constructor
    · intro he; cases he
    · intro he; omega
  · simp only [h, hk]; constructor
    · intro he; cases he
    · rintro ⟨_, ⟨u, hu⟩, _⟩; cases hu
  · simp only [h, hk]
    exact ⟨fun _ => ⟨hl, ⟨u, rfl⟩, hp⟩, fun _ => trivial⟩
  · simp only [h, hk]; constructor
    · intro he; cases he
    · intro he; omega
  · simp only [h]; constructor
    · intro he; cases he
    · intro he; omega
  · simp only [h, hk]; constructor
    · intro he; cases he
    · rintro ⟨_, ⟨u, hu⟩, _⟩; cases hu
  · simp only [h]; constructor
    · intro he; cases he
    · intro he; omega
  · simp only [h, hk]
    exact ⟨fun _ => ⟨hl, ⟨u, rfl⟩, hp⟩, fun _ => trivial⟩
  · exact Or.inr (by rw [h])
  · exact Or.inr (by rw [h])
  · exact Or.inr (by rw [h])
  · exact Or.inl h


/-- C5. Layout of a successful `Parse`: for every `s = head ++ tail` with
`len(tail) = 27`, `len(head) = k ≤ 16` and `tail` decoding to the KSUID `u`, `Parse(s)`
returns no error and the 36-byte value whose bytes `0..k-1` are the bytes of `head`
verbatim, whose bytes `k..15` are zero, and whose bytes `16..35` are the 20 bytes of
`u`. -/
theorem C5_parse_layout (head tail : List Byte) (u : ksuid.KSUID) (ht : tail.length = 27)
    (hk : head.length ≤ 16) (hu : ksuid.Parse tail = .ok u) :
    (Parse (head ++ tail)).2 = none ∧
      (Parse (head ++ tail)).1.bytes = head ++ zeros (16 - head.length) ++ u.bytes ∧
      (Parse (head ++ tail)).1.bytes.take head.length = head ∧
      ((Parse (head ++ tail)).1.bytes.take 16).drop head.length = zeros (16 - head.length) ∧
      (Parse (head ++ tail)).1.bytes.drop 16 = u.bytes := by
  have hlen : (head ++ tail).length - 27 = head.length := by
    simp only [List.length_append, ht]; omega
  have h := Parse_accept (head ++ tail) (by simp only [List.length_append, ht]; omega) u
    (by rw [hlen, List.drop_left]; exact hu) (by omega)
  rw [hlen, List.take_left] at h
  obtain ⟨h1, h2⟩ := h
  have hpad : (head ++ zeros (16 - head.length)).length = 16 := by
    simp only [List.length_append, zeros_length]; omega
  refine ⟨h1, h2, ?_, ?_, ?_⟩
  · rw [h2, List.append_assoc, List.take_left]
  · rw [h2, List.take_left' hpad, List.drop_left]
  · rw [h2, List.drop_left' hpad]

/-- C5, at the head `prefix:` and the tail `208bayYfCoFfqyLD4lZaZ8BvwaF`. -/
theorem C5_parse_layout_witness :
    sampleTail.length = 27 ∧ (str "prefix:").length ≤ 16 ∧
      ksuid.Parse sampleTail = .ok sampleKsuid ∧
      (Parse (str "prefix:" ++ sampleTail)).1.bytes
        = str "prefix:" ++ zeros (16 - (str "prefix:").length) ++ sampleKsuid.bytes :=
  ⟨by decide, by decide, rfl,
    (C5_parse_layout (str "prefix:") sampleTail sampleKsuid (by decide) (by decide) rfl).2.1⟩

/-- C6. `FromBytes` fails iff the length is out of range: for every byte slice `b` it
returns `errMinSize` iff `len(b) < 20`, returns `errMaxSize` iff `len(b) > 36`, and
succeeds for every length `20..36`, whatever the content; on failure the returned value
is `Nil`. -/
theorem C6_frombytes_failures (b : List Byte) :
    ((FromBytes b).2 = some Error.errMinSize ↔ b.length < 20) ∧
    ((FromBytes b).2 = some Error.errMaxSize ↔ 36 < b.length) ∧
    ((FromBytes b).2 = none ↔ 20 ≤ b.length ∧ b.length ≤ 36) ∧
    ((FromBytes b).2 = none ∨ (FromBytes b).1 = Nil) := by
  by_cases h1 : b.length < 20
  · have h := FromBytes_short b h1
    rw [h]
    refine ⟨⟨fun _ => h1, fun _ => rfl⟩, ⟨fun he => (by cases he), fun he => (by omega)⟩,
      ⟨fun he => (by cases he), fun he => (by omega)⟩, Or.inr rfl⟩
  · by_cases h2 : 36 < b.length
    · have h := FromBytes_long b h2
      rw [h]
      refine ⟨⟨fun he => (by cases he), fun he => (by omega)⟩, ⟨fun _ => h2, fun _ => rfl⟩,
        ⟨fun he => (by cases he), fun he => (by omega)⟩, Or.inr rfl⟩
    · have h := (FromBytes_accept b (by omega) (by omega)).1
      rw [h]
      refine ⟨⟨fun he => (by cases he), fun he => (by omega)⟩,
        ⟨fun he => (by cases he), fun he => (by omega)⟩,
        ⟨fun _ => ⟨(by omega), (by omega)⟩, fun _ => rfl⟩, Or.inl rfl⟩

/-- C7. Layout of a successful `FromBytes`: for every `b` with `20 ≤ len(b) ≤ 36` and
`k = len(b) - 20`, the result has bytes `16..35` equal to the last 20 bytes of `b`,
bytes `0..k-1` equal to the first `k` bytes of `b`, and bytes `k..15` zero; with
`len(b) = 20` the prefix region is all zero. -/
theorem C7_frombytes_layout (b : List Byte) (h1 : 20 ≤ b.length) (h2 : b.length ≤ 36) :
    (FromBytes b).2 = none ∧
      (FromBytes b).1.bytes
        = b.take (b.length - 20) ++ zeros (16 - (b.length - 20)) ++ b.drop (b.length - 20) ∧
      (FromBytes b).1.bytes.drop 16 = b.drop (b.length - 20) ∧
      (FromBytes b).1.bytes.take (b.length - 20) = b.take (b.length - 20) ∧
      ((FromBytes b).1.bytes.take 16).drop (b.length - 20) = zeros (16 - (b.length - 20)) ∧
      (b.length = 20 → (FromBytes b).1.bytes.take 16 = zeros 16) := by
  obtain ⟨e1, e2⟩ := FromBytes_accept b h1 h2
  have hl : (b.take (b.length - 20)).length = b.length - 20 := by
    simp only [List.length_take]; omega
  have hpad : (b.take (b.length - 20) ++ zeros (16 - (b.length - 20))).length = 16 := by
    simp only [List.length_append, zeros_length, hl]; omega
  refine ⟨e1, e2, ?_, ?_, ?_, ?_⟩
  · rw [e2, List.drop_left' hpad]
  · rw [e2, List.append_assoc, List.take_left' hl]
  · rw [e2, List.take_left' hpad, List.drop_left' hl]
  · intro h20
    rw [e2, List.take_left' hpad, h20]
    simp

/-- C7, at the 23 bytes `abc` followed by the 20 bytes of `sampleKsuid`. -/
theorem C7_frombytes_layout_witness :
    20 ≤ (str "abc" ++ sampleKsuid.bytes).length ∧
      (str "abc" ++ sampleKsuid.bytes).length ≤ 36 ∧
      (FromBytes (str "abc" ++ sampleKsuid.bytes)).1.bytes
        = str "abc" ++ zeros 13 ++ sampleKsuid.bytes :=
  ⟨by decide, by decide, by
    have h := (C7_frombytes_layout (str "abc" ++ sampleKsuid.bytes) (by decide) (by decide)).2.1
    rw [h]; decide⟩


/-! ## The base62 validator -/

/-- The lookup table is non-zero exactly at the 62 alphanumeric indices. -/
theorem base62Map_ne_zero_iff (i : Byte) : base62Map i ≠ 0 ↔ IsBase62Symbol i := by
  have key : ∀ j : Byte, base62Map j ≠ 0 ↔ IsBase62Symbol j := by decide
  exact key i

theorem isBase62Loop_iff (b : List Byte) :
    isBase62Loop b = true ↔ ∀ c ∈ b, IsBase62Symbol c := by
  induction b with
  | nil => simp [isBase62Loop]
  | cons a l ih =>
    by_cases ha : base62Map a = 0
    · have hn : ¬ IsBase62Symbol a := fun h => (base62Map_ne_zero_iff a).mpr h ha
      simp only [isBase62Loop, ha, if_true, List.mem_cons, forall_eq_or_imp]
      constructor
      · intro h; cases h
      · intro h; exact absurd h.1 hn
    · have hy : IsBase62Symbol a := (base62Map_ne_zero_iff a).mp ha
      simp only [isBase62Loop, ha, if_false, List.mem_cons, forall_eq_or_imp, ih]
      exact ⟨fun h => ⟨hy, h⟩, fun h => h.2⟩

theorem isBase62Bytes_iff (b : List Byte) :
    isBase62Bytes b = true ↔ b ≠ [] ∧ ∀ c ∈ b, IsBase62Symbol c := by
  cases b with
  | nil => simp [isBase62Bytes]
  | cons a l =>
    have h : ¬ (a :: l).length = 0 := by simp
    rw [isBase62Bytes, if_neg h, isBase62Loop_iff]
    exact ⟨fun hs => ⟨List.cons_ne_nil a l, hs⟩, fun hs => hs.2⟩

/-- C8. `isBase62Bytes(b)` is true iff `b` is non-empty and every byte of `b` is one of
the 62 ASCII characters `0-9`, `A-Z`, `a-z`; the lookup table `base62Map` is non-zero
at exactly those indices, of which there are 62. -/
theorem C8_isBase62Bytes (b : List Byte) :
    (isBase62Bytes b = true ↔ b ≠ [] ∧ ∀ c ∈ b, IsBase62Symbol c) ∧
      (∀ i : Byte, base62Map i ≠ 0 ↔ IsBase62Symbol i) ∧
      (Finset.univ.filter (fun i : Byte => base62Map i ≠ 0)).card = 62 ∧
      (Finset.univ.filter (fun i : Byte => IsBase62Symbol i)).card = 62 := by
  refine ⟨isBase62Bytes_iff b, base62Map_ne_zero_iff, ?_, ?_⟩
  · decide
  · decide


/-! ## The SQL boundary -/

theorem UnmarshalText_eq (p : PKSUID) (b : List Byte) :
    p.UnmarshalText b = (if (Parse b).2 = none then (Parse b).1 else p, (Parse b).2) := by
  unfold PKSUID.UnmarshalText
  rcases hP : Parse b with ⟨id, _ | err⟩
  · simp
  · simp

theorem UnmarshalBinary_eq (p : PKSUID) (b : List Byte) :
    p.UnmarshalBinary b
      = (if (FromBytes b).2 = none then (FromBytes b).1 else p, (FromBytes b).2) := by
  unfold PKSUID.UnmarshalBinary
  rcases hP : FromBytes b with ⟨id, _ | err⟩
  · simp
  · simp

/-- The branch taken by `Scan` on a byte slice. -/
theorem Scan_bytes_eq (p : PKSUID) (v : List Byte) :
    p.Scan (ScanSrc.bytes v)
      = if LooksLikeText v then p.UnmarshalText v else p.UnmarshalBinary v := by
  unfold PKSUID.Scan LooksLikeText
  simp only [pksuidByteLength, ksuidByteLength, prefixByteLength, ksuidStringEncodedLength,
    gt_iff_lt, ge_iff_le, Nat.reduceAdd]
  by_cases h1 : 36 < v.length
  · simp [h1]
  · by_cases h2 : 27 ≤ v.length
    · have hne : v.drop (v.length - 27) ≠ [] := by
        intro h
        have := congrArg List.length h
        simp only [List.length_drop, List.length_nil] at this
        omega
      simp only [h1, if_false, h2, true_and, false_or, isBase62Bytes_iff, ne_eq, hne,
        not_false_eq_true]
    · simp [h1, h2]

/-- C9, as stated, fails on rejected input: `Scan` leaves its receiver as it was, it does
not take the value `Nil` that `Parse` or `FromBytes` returns with the error. With the
receiver `sampleId`: on the 44 bytes of `longHeadInput` (text, rejected with
`errPrefixSize`) and on 19 zero bytes (binary, rejected with `errMinSize`) the receiver
after `Scan` is `sampleId`, while the decoders return `Nil`. -/
theorem C9_counterexample :
    (LooksLikeText longHeadInput ∧
      Parse longHeadInput = (Nil, some Error.errPrefixSize) ∧
      sampleId.Scan (ScanSrc.bytes longHeadInput) = (sampleId, some Error.errPrefixSize) ∧
      (sampleId.Scan (ScanSrc.bytes longHeadInput)).1 ≠ (Parse longHeadInput).1) ∧
    (¬ LooksLikeText (zeros 19) ∧
      FromBytes (zeros 19) = (Nil, some Error.errMinSize) ∧
      sampleId.Scan (ScanSrc.bytes (zeros 19)) = (sampleId, some Error.errMinSize) ∧
      (sampleId.Scan (ScanSrc.bytes (zeros 19))).1 ≠ (FromBytes (zeros 19)).1) := by
  decide

/-- C9, amended. `Scan` classifies a byte slice by length and tail: for every byte slice
`v`, when `len(v) > 36`, or when `len(v) ≥ 27` and the last 27 bytes of `v` are all
base62 symbols, `Scan(v)` returns the error of `Parse(string(v))`; in every other case
it returns the error of `FromBytes(v)`. When that error is nil the receiver becomes the
value the decoder returned; when it is not, the receiver keeps the value it had. -/
theorem C9_scan_bytes (p : PKSUID) (v : List Byte) :
    (LooksLikeText v →
      (p.Scan (ScanSrc.bytes v)).2 = (Parse v).2 ∧
      (p.Scan (ScanSrc.bytes v)).1 = if (Parse v).2 = none then (Parse v).1 else p) ∧
    (¬ LooksLikeText v →
      (p.Scan (ScanSrc.bytes v)).2 = (FromBytes v).2 ∧
      (p.Scan (ScanSrc.bytes v)).1
        = if (FromBytes v).2 = none then (FromBytes v).1 else p) := by
  constructor
  · intro h
    rw [Scan_bytes_eq, if_pos h, UnmarshalText_eq]
    exact ⟨rfl, rfl⟩
  · intro h
    rw [Scan_bytes_eq, if_neg h, UnmarshalBinary_eq]
    exact ⟨rfl, rfl⟩

/-- C9 amended, at the text `prefix:208bayYfCoFfqyLD4lZaZ8BvwaF` and at the 36 bytes of
`sampleId`, both scanned into the receiver `Nil`. -/
theorem C9_scan_bytes_witness :
    (LooksLikeText (str "prefix:" ++ sampleTail) ∧
      (Nil.Scan (ScanSrc.bytes (str "prefix:" ++ sampleTail))).2
        = (Parse (str "prefix:" ++ sampleTail)).2) ∧
    (¬ LooksLikeText sampleId.bytes ∧
      (Nil.Scan (ScanSrc.bytes sampleId.bytes)).2 = (FromBytes sampleId.bytes).2) :=
  ⟨⟨by decide, ((C9_scan_bytes Nil (str "prefix:" ++ sampleTail)).1 (by decide)).1⟩,
    ⟨by decide, ((C9_scan_bytes Nil sampleId.bytes).2 (by decide)).1⟩⟩

theorem IsNil_iff (id : PKSUID) : id.IsNil = true ↔ ∀ b ∈ id.bytes.drop 16, b = 0 := by
  have hl : (id.bytes.drop 16).length = 20 := ksuidBytes_length id
  simp only [PKSUID.IsNil, decide_eq_true_eq, prefixByteLength, nilKSUID, zeros,
    ksuidByteLength, List.eq_replicate_iff, hl, true_and]

/-- C10. `Value` never fails and returns the null driver value iff `id.IsNil()`, that is
iff the KSUID region, bytes `16..35`, is all zero, whatever the prefix; for every other
`id` it returns the string `id.String()`. -/
theorem C10_value (id : PKSUID) :
    id.Value.2 = none ∧
      (id.Value.1 = DriverValue.null ↔ id.IsNil = true) ∧
      (id.IsNil = true ↔ ∀ b ∈ id.bytes.drop 16, b = 0) ∧
      (id.IsNil = false → id.Value.1 = DriverValue.string id.String) := by
  refine ⟨?_, ?_, IsNil_iff id, ?_⟩
  · unfold PKSUID.Value; split <;> rfl
  · unfold PKSUID.Value
    by_cases h : id.IsNil = true
    · simp [h]
    · simp [h]
  · intro h
    unfold PKSUID.Value
    simp [h]

/-- C10, at `sampleId`, which is not nil, and at a nil identifier with the same prefix. -/
theorem C10_value_witness :
    (sampleId.IsNil = false ∧
      sampleId.Value = (DriverValue.string (str "prefix:208bayYfCoFfqyLD4lZaZ8BvwaF"), none)) ∧
    (Nil.SetPrefix sampleId.Prefix).Value = (DriverValue.null, none) :=
  ⟨⟨by decide, by
    have h := (C10_value sampleId).2.2.2 (by decide)
    have h2 := (C10_value sampleId).1
    refine Prod.ext (h.trans ?_) h2
    decide⟩, by decide⟩


/-! ## Scanning what `Bytes` and `String` produce -/

theorem FromBytes_Bytes (id : PKSUID) : FromBytes id.Bytes = (id, none) := by
  have hsz : id.bytes.length = 36 := id.size
  have h := FromBytes_accept id.bytes (by omega) (by omega)
  refine Prod.ext (PKSUID_ext ?_) h.1
  have e := h.2
  rw [hsz] at e
  simpa [zeros] using e

theorem Parse_String_canonical (id : PKSUID) (k : Nat) (hk : k ≤ 16)
    (hnz : ∀ b ∈ id.PrefixBytes.take k, b ≠ 0) (hz : ∀ b ∈ id.PrefixBytes.drop k, b = 0) :
    Parse id.String = (id, none) := by
  obtain ⟨hlen, hsplit⟩ := canonical_prefix_split id k hk hz
  have hstr : id.String = id.PrefixBytes.take k ++ id.KSUID.String := by
    rw [PKSUID.String]
    conv_lhs => rw [hsplit]
    rw [trimAfterNullChar_padded _ _ hnz]
  have hP := Parse_head_String (id.PrefixBytes.take k) id.KSUID (by omega)
  rw [← hstr, KSUID_bytes, ← hsplit, ← bytes_split] at hP
  exact Prod.ext (PKSUID_ext hP.2) hP.1

/-- The 36 bytes of a PKSUID read as text exactly when bytes `9..35` are base62. -/
theorem LooksLikeText_Bytes_iff (id : PKSUID) :
    LooksLikeText id.Bytes ↔ ∀ c ∈ id.bytes.drop 9, IsBase62Symbol c := by
  have hsz : id.bytes.length = 36 := id.size
  simp only [LooksLikeText, PKSUID.Bytes, hsz]
  constructor
  · rintro (h | ⟨_, h⟩)
    · omega
    · exact h
  · intro h
    exact Or.inr ⟨by omega, h⟩

theorem Scan_Bytes_binary (id p : PKSUID) (h : ¬ LooksLikeText id.Bytes) :
    p.Scan (ScanSrc.bytes id.Bytes) = (id, none) := by
  rw [Scan_bytes_eq, if_neg h, UnmarshalBinary_eq, FromBytes_Bytes]
  rfl

/-- Read as text, the 36 bytes of a PKSUID never decode to that PKSUID: the head is
bytes `0..8`, so bytes `9..15` of the result are zero. -/
theorem Scan_Bytes_text (id p : PKSUID) (h : LooksLikeText id.Bytes) :
    p.Scan (ScanSrc.bytes id.Bytes) ≠ (id, none) := by
  have hsz : id.bytes.length = 36 := id.size
  have hsym := (LooksLikeText_Bytes_iff id).mp h
  rw [Scan_bytes_eq, if_pos h, UnmarshalText_eq]
  intro heq
  have h2 : (Parse id.Bytes).2 = none := congrArg Prod.snd heq
  have h1 : (Parse id.Bytes).1 = id := by
    have := congrArg Prod.fst heq
    simpa [h2] using this
  rcases Parse_cases id.Bytes with ⟨_, e⟩ | ⟨_, _, _, e⟩ | ⟨_, _, _, _, e⟩ | ⟨_, u, _, _, _, hb⟩
  · rw [e] at h2; cases h2
  · rw [e] at h2; cases h2
  · rw [e] at h2; cases h2
  · rw [h1] at hb
    simp only [PKSUID.Bytes, hsz] at hb
    have hd := congrArg (List.drop 9) hb
    have hl9 : (id.bytes.take 9).length = 9 := by
      simp only [List.length_take]; omega
    rw [List.append_assoc, List.drop_left' hl9] at hd
    have h0 : (0 : Byte) ∈ id.bytes.drop 9 := by
      rw [hd]; simp [zeros]
    exact absurd (hsym 0 h0) (by decide)


/-- C11, as stated, fails: the 36 bytes of `digitsId`, all the character `0`, end in 27
base62 symbols, so `Scan` reads them as text; it returns no error and sets the receiver
to nine bytes `0`, seven zero bytes and the all-zero KSUID, not to `digitsId`. -/
theorem C11_counterexample :
    LooksLikeText digitsId.Bytes ∧
      (Nil.Scan (ScanSrc.bytes digitsId.Bytes)).2 = none ∧
      (Nil.Scan (ScanSrc.bytes digitsId.Bytes)).1.bytes
        = List.replicate 9 48 ++ zeros 7 ++ zeros 20 ∧
      (Nil.Scan (ScanSrc.bytes digitsId.Bytes)).1 ≠ digitsId := by
  decide

/-- C11, amended. Scanning the binary form recovers the identifier exactly when it is
not mistaken for text: for every PKSUID `id` and receiver, `Scan` applied to the byte
slice `id.Bytes()` returns no error and sets the receiver to `id` if and only if at
least one of the bytes `9..35` of `id` is not a base62 symbol. -/
theorem C11_scan_binary (id p : PKSUID) :
    p.Scan (ScanSrc.bytes id.Bytes) = (id, none) ↔
      ∃ c ∈ id.bytes.drop 9, ¬ IsBase62Symbol c := by
  constructor
  · intro h
    by_contra hne
    have hall : ∀ c ∈ id.bytes.drop 9, IsBase62Symbol c := by
      intro c hc
      by_contra hc'
      exact hne ⟨c, hc, hc'⟩
    exact Scan_Bytes_text id p ((LooksLikeText_Bytes_iff id).mpr hall) h
  · rintro ⟨c, hc, hn⟩
    exact Scan_Bytes_binary id p (fun ht => hn ((LooksLikeText_Bytes_iff id).mp ht c hc))

/-- The string form of a PKSUID always reads as text. -/
theorem LooksLikeText_String (id : PKSUID) : LooksLikeText id.String := by
  have hl := PKSUID_String_length id
  refine Or.inr ⟨by omega, ?_⟩
  have hd : id.String.drop (id.String.length - 27) = id.KSUID.String := by
    rw [PKSUID.String]
    exact List.drop_left' (by
      simp only [List.length_append, ksuid.KSUID_String_length]; omega)
  rw [hd]
  exact ksuid.KSUID_String_symbols id.KSUID

/-- C12. Scanning the canonical text recovers the identifier in either carrier type: for
every PKSUID `id` with a canonical prefix (`k ≤ 16` non-zero bytes followed only by
zeros) and every receiver, `Scan(id.String())` given as a string and
`Scan([]byte(id.String()))` given as a byte slice both return no error and set the
receiver to `id`; the byte-slice form is classified as text, because the last 27 bytes
of `id.String()` are base62 symbols. -/
theorem C12_scan_text (id : PKSUID) (k : Nat) (hk : k ≤ 16)
    (hnz : ∀ b ∈ id.PrefixBytes.take k, b ≠ 0) (hz : ∀ b ∈ id.PrefixBytes.drop k, b = 0)
    (p : PKSUID) :
    p.Scan (ScanSrc.string id.String) = (id, none) ∧
      p.Scan (ScanSrc.bytes id.String) = (id, none) ∧
      p.Scan (ScanSrc.bytes id.String) = p.UnmarshalText id.String ∧
      27 ≤ id.String.length ∧
      (∀ c ∈ id.String.drop (id.String.length - 27), IsBase62Symbol c) := by
  have hP := Parse_String_canonical id k hk hnz hz
  have hU : p.UnmarshalText id.String = (id, none) := by
    rw [UnmarshalText_eq, hP]; rfl
  have hT := LooksLikeText_String id
  have hS : p.Scan (ScanSrc.bytes id.String) = p.UnmarshalText id.String := by
    rw [Scan_bytes_eq, if_pos hT]
  have hl := PKSUID_String_length id
  have hd : id.String.drop (id.String.length - 27) = id.KSUID.String := by
    rw [PKSUID.String]
    exact List.drop_left' (by
      simp only [List.length_append, ksuid.KSUID_String_length]; omega)
  refine ⟨hU, hS.trans hU, hS, by omega, ?_⟩
  rw [hd]
  exact ksuid.KSUID_String_symbols id.KSUID

/-- C12, at `sampleId` scanned into the receiver `digitsId`. -/
theorem C12_scan_text_witness :
    7 ≤ 16 ∧ (∀ b ∈ sampleId.PrefixBytes.take 7, b ≠ 0) ∧
      (∀ b ∈ sampleId.PrefixBytes.drop 7, b = 0) ∧
      digitsId.Scan (ScanSrc.string sampleId.String) = (sampleId, none) ∧
      digitsId.Scan (ScanSrc.bytes sampleId.String) = (sampleId, none) :=
  ⟨by decide, by decide, by decide,
    (C12_scan_text sampleId 7 (by decide) (by decide) (by decide) digitsId).1,
    (C12_scan_text sampleId 7 (by decide) (by decide) (by decide) digitsId).2.1⟩


/-! ## Nil values -/

theorem Value_of_IsNil (id : PKSUID) (h : id.IsNil = true) :
    id.Value = (DriverValue.null, none) := by
  simp [PKSUID.Value, h]

theorem Value_of_not_IsNil (id : PKSUID) (h : id.IsNil = false) :
    id.Value = (DriverValue.string id.String, none) := by
  simp [PKSUID.Value, h]

theorem all_zero_iff_eq_zeros (l : List Byte) (n : Nat) (hl : l.length = n) :
    (∀ b ∈ l, b = 0) ↔ l = zeros n := by
  rw [zeros, List.eq_replicate_iff]
  exact ⟨fun h => ⟨hl, h⟩, fun h => h.2⟩

/-- The value `Nil` is `id` exactly when `id` is nil and its prefix is all zero. -/
theorem Nil_eq_iff (id : PKSUID) (h : id.IsNil = true) :
    Nil = id ↔ ∀ b ∈ id.PrefixBytes, b = 0 := by
  have hk : id.ksuidBytes = zeros 20 :=
    (all_zero_iff_eq_zeros _ 20 (ksuidBytes_length id)).mp ((IsNil_iff id).mp h)
  rw [all_zero_iff_eq_zeros _ 16 (PrefixBytes_length id)]
  constructor
  · intro e
    rw [← e]
    decide
  · intro e
    apply PKSUID_ext
    rw [bytes_split id, e, hk]
    decide

/-- C13. `Scan` after `Value` is lossless only for non-nil identifiers: `Scan(nil)` sets
the receiver to the all-zero `Nil`; hence for every `id` with `id.IsNil()`,
`Scan(id.Value())` yields `Nil`, which equals `id` iff the prefix of `id` is all zero;
and for every `id` that is not nil and has a canonical prefix (`k ≤ 16` non-zero bytes
followed only by zeros), `Scan(id.Value())` yields `id`. -/
theorem C13_scan_after_value (id p : PKSUID) :
    p.Scan ScanSrc.null = (Nil, none) ∧
    (id.IsNil = true →
      p.Scan id.Value.1.toScanSrc = (Nil, none) ∧
      (Nil = id ↔ ∀ b ∈ id.PrefixBytes, b = 0)) ∧
    (id.IsNil = false →
      ∀ k, k ≤ 16 → (∀ b ∈ id.PrefixBytes.take k, b ≠ 0) →
        (∀ b ∈ id.PrefixBytes.drop k, b = 0) →
        p.Scan id.Value.1.toScanSrc = (id, none)) := by
  refine ⟨rfl, ?_, ?_⟩
  · intro h
    rw [Value_of_IsNil id h]
    exact ⟨rfl, Nil_eq_iff id h⟩
  · intro h k hk hnz hz
    rw [Value_of_not_IsNil id h]
    show p.UnmarshalText id.String = (id, none)
    rw [UnmarshalText_eq, Parse_String_canonical id k hk hnz hz]
    rfl

/-- C13, at the nil identifier `nilWithPrefix`, whose prefix is not zero and which
comes back as `Nil`, and at `sampleId`, which is not nil and comes back unchanged. -/
theorem C13_scan_after_value_witness :
    (nilWithPrefix.IsNil = true ∧
      digitsId.Scan nilWithPrefix.Value.1.toScanSrc = (Nil, none) ∧ Nil ≠ nilWithPrefix) ∧
    (sampleId.IsNil = false ∧
      digitsId.Scan sampleId.Value.1.toScanSrc = (sampleId, none)) :=
  ⟨⟨by decide, ((C13_scan_after_value nilWithPrefix digitsId).2.1 (by decide)).1, by decide⟩,
    ⟨by decide, (C13_scan_after_value sampleId digitsId).2.2 (by decide) 7 (by decide)
      (by decide) (by decide)⟩⟩

theorem SetPrefix_bytes (id : PKSUID) (pfx : Prefix) :
    (id.SetPrefix pfx).bytes = pfx.bytes ++ id.ksuidBytes := by
  have hp : pfx.bytes.length = 16 := pfx.size
  have hl := PrefixBytes_length id
  simp only [PKSUID.SetPrefix, PKSUID.copyToPrefix]
  rw [copy_of_length_eq _ _ (by rw [hp]; exact hl.symm)]
  rfl

theorem SetPrefix_ksuidBytes (id : PKSUID) (pfx : Prefix) :
    (id.SetPrefix pfx).ksuidBytes = id.ksuidBytes := by
  have hp : pfx.bytes.length = 16 := pfx.size
  rw [PKSUID.ksuidBytes, SetPrefix_bytes, prefixByteLength, List.drop_left' hp]

theorem IsNil_eq_of_ksuidBytes (p q : PKSUID) (h : p.ksuidBytes = q.ksuidBytes) :
    p.IsNil = q.IsNil := by
  simp only [PKSUID.IsNil, PKSUID.ksuidBytes] at h ⊢
  rw [h]

/-- C14. `IsNil` depends only on the KSUID region: for every PKSUID `id`, `id.IsNil()`
is true iff bytes `16..35` are all zero; consequently replacing the prefix with
`SetPrefix` never changes `IsNil`, and `FromBytes` of 20 zero bytes, or of 36 bytes made
of any 16-byte prefix followed by 20 zero bytes, is nil. -/
theorem C14_isNil (id : PKSUID) :
    (id.IsNil = true ↔ ∀ b ∈ id.bytes.drop 16, b = 0) ∧
    (∀ pfx : Prefix, (id.SetPrefix pfx).IsNil = id.IsNil) ∧
    (FromBytes (zeros 20)).2 = none ∧ (FromBytes (zeros 20)).1.IsNil = true ∧
    (∀ pfx : Prefix, (FromBytes (pfx.bytes ++ zeros 20)).2 = none ∧
      (FromBytes (pfx.bytes ++ zeros 20)).1.IsNil = true) := by
  refine ⟨IsNil_iff id, fun pfx => IsNil_eq_of_ksuidBytes _ _ (SetPrefix_ksuidBytes id pfx),
    by decide, by decide, fun pfx => ?_⟩
  have hp : pfx.bytes.length = 16 := pfx.size
  have hlen : (pfx.bytes ++ zeros 20).length = 36 := by
    simp only [List.length_append, zeros_length, hp]
  obtain ⟨e1, e2⟩ := FromBytes_accept (pfx.bytes ++ zeros 20) (by omega) (by omega)
  refine ⟨e1, (IsNil_iff _).mpr ?_⟩
  rw [e2, hlen]
  have h16 : (List.take (36 - 20) (pfx.bytes ++ zeros 20) ++ zeros (16 - (36 - 20))).length
      = 16 := by
    simp only [List.length_append, List.length_take, zeros_length, hp]; omega
  rw [List.drop_left' h16]
  have hd : List.drop (36 - 20) (pfx.bytes ++ zeros 20) = zeros 20 :=
    List.drop_left' hp
  rw [hd]
  intro b hb
  exact (List.eq_replicate_iff.mp (rfl : zeros 20 = List.replicate 20 0)).2 b hb


theorem PKSUID_eq_Nil_iff (id : PKSUID) : id = Nil ↔ ∀ b ∈ id.bytes, b = 0 := by
  have hsz : id.bytes.length = 36 := id.size
  rw [all_zero_iff_eq_zeros _ 36 hsz]
  constructor
  · intro h; rw [h]; rfl
  · intro h; exact PKSUID_ext (by rw [h]; rfl)

theorem mem_bytes_iff (id : PKSUID) (b : Byte) :
    b ∈ id.bytes ↔ b ∈ id.PrefixBytes ∨ b ∈ id.bytes.drop 16 := by
  conv_lhs => rw [bytes_split id]
  rw [List.mem_append]
  rfl

/-- C15. `IsNilWithPrefix` is the stricter predicate: for every PKSUID `id`,
`id.IsNilWithPrefix()` is true iff all 36 bytes are zero; so `IsNilWithPrefix` implies
`IsNil`, and an `id` with a non-zero prefix and an all-zero KSUID region has
`IsNil() = true` and `IsNilWithPrefix() = false`. -/
theorem C15_isNilWithPrefix (id : PKSUID) :
    (id.IsNilWithPrefix = true ↔ ∀ b ∈ id.bytes, b = 0) ∧
    (id.IsNilWithPrefix = true → id.IsNil = true) ∧
    ((∃ b ∈ id.PrefixBytes, b ≠ 0) → (∀ b ∈ id.bytes.drop 16, b = 0) →
      id.IsNil = true ∧ id.IsNilWithPrefix = false) := by
  have h1 : id.IsNilWithPrefix = true ↔ ∀ b ∈ id.bytes, b = 0 := by
    rw [PKSUID.IsNilWithPrefix, decide_eq_true_eq]
    exact PKSUID_eq_Nil_iff id
  refine ⟨h1, ?_, ?_⟩
  · intro h
    exact (IsNil_iff id).mpr
      (fun b hb => h1.mp h b ((mem_bytes_iff id b).mpr (Or.inr hb)))
  · rintro ⟨b, hb, hb0⟩ hz
    refine ⟨(IsNil_iff id).mpr hz, ?_⟩
    cases hw : id.IsNilWithPrefix with
    | false => rfl
    | true => exact absurd (h1.mp hw b ((mem_bytes_iff id b).mpr (Or.inl hb))) hb0

/-- C15, at `nilWithPrefix`: the prefix `prefix:` and an all-zero KSUID region. -/
theorem C15_isNilWithPrefix_witness :
    (∃ b ∈ nilWithPrefix.PrefixBytes, b ≠ 0) ∧ (∀ b ∈ nilWithPrefix.bytes.drop 16, b = 0) ∧
      nilWithPrefix.IsNil = true ∧ nilWithPrefix.IsNilWithPrefix = false :=
  ⟨by decide, by decide, (C15_isNilWithPrefix nilWithPrefix).2.2 (by decide) (by decide)⟩

/-! ## The printable prefix -/

theorem trimAfterNullChar_eq_takeWhile (b : List Byte) :
    trimAfterNullChar b = b.takeWhile (fun c => decide (c ≠ 0)) := by
  induction b with
  | nil => simpa using trimAfterNullChar_nil
  | cons a l ih =>
    by_cases ha : a = 0
    · subst ha
      rw [trimAfterNullChar_zero]
      simp
    · rw [trimAfterNullChar_cons a l ha, ih]
      simp [ha]

theorem trimAfterNullChar_prefix (b : List Byte) : trimAfterNullChar b <+: b := by
  rw [trimAfterNullChar_eq_takeWhile]
  exact List.takeWhile_prefix _

theorem trimAfterNullChar_no_zero (b : List Byte) : (0 : Byte) ∉ trimAfterNullChar b := by
  rw [trimAfterNullChar_eq_takeWhile]
  intro h
  have := List.mem_takeWhile_imp h
  simp at this

theorem trimAfterNullChar_longest (b l : List Byte) (hp : l <+: b) (h0 : (0 : Byte) ∉ l) :
    l <+: trimAfterNullChar b := by
  induction b generalizing l with
  | nil =>
    rw [List.prefix_nil] at hp
    subst hp
    exact List.nil_prefix
  | cons a b ih =>
    cases l with
    | nil => exact List.nil_prefix
    | cons c l =>
      obtain ⟨hca, hl⟩ := List.cons_prefix_cons.mp hp
      subst hca
      have hc : c ≠ 0 := fun e => h0 (by simp [e])
      have hl0 : (0 : Byte) ∉ l := fun e => h0 (List.mem_cons_of_mem _ e)
      rw [trimAfterNullChar_cons c b hc]
      exact List.cons_prefix_cons.mpr ⟨rfl, ih l hl hl0⟩

theorem trimAfterNullChar_of_no_zero (b : List Byte) (h0 : (0 : Byte) ∉ b) :
    trimAfterNullChar b = b := by
  have h := trimAfterNullChar_padded b 0 (fun c hc e => h0 (e ▸ hc))
  simpa [zeros] using h

/-- C16. `Prefix.String` truncates at the first null byte: for every 16-byte Prefix `p`,
`p.String()` is the longest initial segment of `p` that contains no zero byte, that is
the bytes before the first zero, or all 16 bytes when `p` has none; bytes after the
first zero never appear in it, so `hello`, a null byte, `!` and zero padding give
`hello`. -/
theorem C16_prefix_string (p : Prefix) :
    p.String = p.bytes.takeWhile (fun c => decide (c ≠ 0)) ∧
    p.String <+: p.bytes ∧ (0 : Byte) ∉ p.String ∧
    (∀ l : List Byte, l <+: p.bytes → (0 : Byte) ∉ l → l <+: p.String) ∧
    ((0 : Byte) ∉ p.bytes → p.String = p.bytes) ∧
    helloPrefix.String = str "hello" := by
  refine ⟨trimAfterNullChar_eq_takeWhile p.bytes, trimAfterNullChar_prefix p.bytes,
    trimAfterNullChar_no_zero p.bytes, fun l hl h0 => trimAfterNullChar_longest p.bytes l hl h0,
    fun h0 => trimAfterNullChar_of_no_zero p.bytes h0, by decide⟩

/-! ## Replacing the prefix -/

theorem Prefix_ext {p q : Prefix} (h : p.bytes = q.bytes) : p = q := by
  cases p; cases q; cases h; rfl

theorem SetPrefix_PrefixBytes (id : PKSUID) (pfx : Prefix) :
    (id.SetPrefix pfx).PrefixBytes = pfx.bytes := by
  have hp : pfx.bytes.length = 16 := pfx.size
  rw [PKSUID.PrefixBytes, SetPrefix_bytes, prefixByteLength, List.take_left' hp]

/-- C17. `SetPrefix` overwrites the prefix region only: for every PKSUID `id` and Prefix
`p`, after `id.SetPrefix(p)` the accessor `id.Prefix()` equals `p`, all 16 bytes with no
validation or trimming, and bytes `16..35` of `id`, hence `IDBytes()`, are unchanged. -/
theorem C17_setPrefix (id : PKSUID) (p : Prefix) :
    (id.SetPrefix p).Prefix = p ∧
    (id.SetPrefix p).PrefixBytes = p.bytes ∧
    (id.SetPrefix p).bytes.drop 16 = id.bytes.drop 16 ∧
    (id.SetPrefix p).IDBytes = id.IDBytes := by
  have hp : p.bytes.length = 16 := p.size
  refine ⟨Prefix_ext ?_, SetPrefix_PrefixBytes id p, SetPrefix_ksuidBytes id p,
    SetPrefix_ksuidBytes id p⟩
  simp only [PKSUID.Prefix, SetPrefix_PrefixBytes]
  exact copy_of_length_eq _ _ (by rw [hp, zeros_length, prefixByteLength])


/-! ## The binary branch of `Scan` -/

theorem not_symbol_zero : ¬ IsBase62Symbol (0 : Byte) := by decide

theorem not_LooksLikeText_short (v : List Byte) (h : v.length ≤ 26) : ¬ LooksLikeText v := by
  rintro (h1 | ⟨h1, _⟩) <;> omega

theorem mem_drop9_of_last_zero (id : PKSUID) (h15 : id.bytes[15]? = some 0) :
    ∃ c ∈ id.bytes.drop 9, ¬ IsBase62Symbol c := by
  refine ⟨0, ?_, not_symbol_zero⟩
  have h6 : (id.bytes.drop 9)[6]? = some 0 := by
    rw [List.getElem?_drop]; exact h15
  exact List.getElem?_mem h6

theorem last_zero_of_padded (id : PKSUID) (k : Nat) (hk : k ≤ 15)
    (hz : ∀ b ∈ id.PrefixBytes.drop k, b = 0) : id.bytes[15]? = some 0 := by
  have hsz : id.bytes.length = 36 := id.size
  have h15 : 15 < id.bytes.length := by omega
  have hget : id.bytes[15]? = some id.bytes[15] := List.getElem?_eq_getElem h15
  have hmem : id.bytes[15] ∈ id.PrefixBytes.drop k := by
    have hi : (id.PrefixBytes.drop k)[15 - k]? = some id.bytes[15] := by
      rw [List.getElem?_drop, PKSUID.PrefixBytes, prefixByteLength, List.getElem?_take]
      have hk15 : k + (15 - k) = 15 := by omega
      rw [hk15, if_pos (by omega), hget]
    exact List.getElem?_mem hi
  rw [hget, hz _ hmem]

/-- C18. Sufficient condition for the binary heuristic: for every PKSUID `id` that has at
least one byte outside the base62 alphabet among its bytes `9..35`, in particular every
`id` whose prefix ends in a zero byte, such as any prefix of at most 15 bytes padded
with zeros, `Scan(id.Bytes())` takes the binary branch and sets the receiver to `id`;
and every byte slice of length `20..26` is decoded as binary and never fails. -/
theorem C18_binary_heuristic (id p : PKSUID) :
    ((∃ c ∈ id.bytes.drop 9, ¬ IsBase62Symbol c) →
      ¬ LooksLikeText id.Bytes ∧
      p.Scan (ScanSrc.bytes id.Bytes) = p.UnmarshalBinary id.Bytes ∧
      p.Scan (ScanSrc.bytes id.Bytes) = (id, none)) ∧
    (id.bytes[15]? = some 0 →
      ¬ LooksLikeText id.Bytes ∧
      p.Scan (ScanSrc.bytes id.Bytes) = p.UnmarshalBinary id.Bytes ∧
      p.Scan (ScanSrc.bytes id.Bytes) = (id, none)) ∧
    (∀ k, k ≤ 15 → (∀ b ∈ id.PrefixBytes.drop k, b = 0) →
      ¬ LooksLikeText id.Bytes ∧
      p.Scan (ScanSrc.bytes id.Bytes) = p.UnmarshalBinary id.Bytes ∧
      p.Scan (ScanSrc.bytes id.Bytes) = (id, none)) ∧
    (∀ v : List Byte, 20 ≤ v.length → v.length ≤ 26 →
      ¬ LooksLikeText v ∧
      p.Scan (ScanSrc.bytes v) = p.UnmarshalBinary v ∧
      p.Scan (ScanSrc.bytes v) = ((FromBytes v).1, none)) := by
  have main : (∃ c ∈ id.bytes.drop 9, ¬ IsBase62Symbol c) →
      ¬ LooksLikeText id.Bytes ∧
      p.Scan (ScanSrc.bytes id.Bytes) = p.UnmarshalBinary id.Bytes ∧
      p.Scan (ScanSrc.bytes id.Bytes) = (id, none) := by
    rintro ⟨c, hc, hn⟩
    have hnt : ¬ LooksLikeText id.Bytes :=
      fun ht => hn ((LooksLikeText_Bytes_iff id).mp ht c hc)
    refine ⟨hnt, ?_, Scan_Bytes_binary id p hnt⟩
    rw [Scan_bytes_eq, if_neg hnt]
  refine ⟨main, fun h15 => main (mem_drop9_of_last_zero id h15),
    fun k hk hz => main (mem_drop9_of_last_zero id (last_zero_of_padded id k hk hz)), ?_⟩
  intro v h20 h26
  have hnt := not_LooksLikeText_short v h26
  have hs : p.Scan (ScanSrc.bytes v) = p.UnmarshalBinary v := by
    rw [Scan_bytes_eq, if_neg hnt]
  refine ⟨hnt, hs, ?_⟩
  have hok := (FromBytes_accept v h20 (by omega)).1
  rw [hs, UnmarshalBinary_eq, hok]
  rfl

/-- C18, at `sampleId`, whose prefix `prefix:` is padded with zeros, and at the 23 bytes
`abc` followed by the 20 bytes of `sampleKsuid`. -/
theorem C18_binary_heuristic_witness :
    ((∀ b ∈ sampleId.PrefixBytes.drop 7, b = 0) ∧
      digitsId.Scan (ScanSrc.bytes sampleId.Bytes) = (sampleId, none)) ∧
    (20 ≤ (str "abc" ++ sampleKsuid.bytes).length ∧
      (str "abc" ++ sampleKsuid.bytes).length ≤ 26 ∧
      (digitsId.Scan (ScanSrc.bytes (str "abc" ++ sampleKsuid.bytes))).2 = none) :=
  ⟨⟨by decide, ((C18_binary_heuristic sampleId digitsId).2.2.1 7 (by decide) (by decide)).2.2⟩,
    ⟨by decide, by decide,
      congrArg Prod.snd (((C18_binary_heuristic sampleId digitsId).2.2.2
        (str "abc" ++ sampleKsuid.bytes) (by decide) (by decide)).2.2)⟩⟩

/-! ## Failure leaves the receiver untouched -/

theorem UnmarshalText_atomic (p : PKSUID) (b : List Byte)
    (h : (p.UnmarshalText b).2 ≠ none) : (p.UnmarshalText b).1 = p := by
  rw [UnmarshalText_eq] at h ⊢
  exact if_neg h

theorem UnmarshalBinary_atomic (p : PKSUID) (b : List Byte)
    (h : (p.UnmarshalBinary b).2 ≠ none) : (p.UnmarshalBinary b).1 = p := by
  rw [UnmarshalBinary_eq] at h ⊢
  exact if_neg h

theorem Scan_atomic (p : PKSUID) (src : ScanSrc) (h : (p.Scan src).2 ≠ none) :
    (p.Scan src).1 = p := by
  cases src with
  | null => exact absurd rfl h
  | bytes v =>
    rw [Scan_bytes_eq] at h ⊢
    by_cases ht : LooksLikeText v
    · rw [if_pos ht] at h ⊢; exact UnmarshalText_atomic p v h
    · rw [if_neg ht] at h ⊢; exact UnmarshalBinary_atomic p v h
  | string v => exact UnmarshalText_atomic p v h
  | other t => rfl

/-- C19. Decoding is atomic on failure: whenever `UnmarshalText`, `UnmarshalBinary` or
`Scan` returns an error (malformed text, out-of-range binary length, or an input that is
neither null, byte slice nor string), the receiver keeps exactly the value it had before
the call; it is overwritten only on success. -/
theorem C19_atomic_failure (p : PKSUID) (b : List Byte) (src : ScanSrc) (typeName : String) :
    ((p.UnmarshalText b).2 ≠ none → (p.UnmarshalText b).1 = p) ∧
    ((p.UnmarshalBinary b).2 ≠ none → (p.UnmarshalBinary b).1 = p) ∧
    ((p.Scan src).2 ≠ none → (p.Scan src).1 = p) ∧
    p.Scan (ScanSrc.other typeName) = (p, some (Error.scanType typeName)) ∧
    ((p.UnmarshalText b).1 ≠ p → (p.UnmarshalText b).2 = none) ∧
    ((p.UnmarshalBinary b).1 ≠ p → (p.UnmarshalBinary b).2 = none) ∧
    ((p.Scan src).1 ≠ p → (p.Scan src).2 = none) := by
  refine ⟨UnmarshalText_atomic p b, UnmarshalBinary_atomic p b, Scan_atomic p src, rfl,
    ?_, ?_, ?_⟩
  · intro h; by_contra he; exact h (UnmarshalText_atomic p b he)
  · intro h; by_contra he; exact h (UnmarshalBinary_atomic p b he)
  · intro h; by_contra he; exact h (Scan_atomic p src he)

/-- C19, at the receiver `sampleId` with the rejected text `longHeadInput`, 19 zero
bytes as rejected binary, and 37 zero bytes scanned as a byte slice. -/
theorem C19_atomic_failure_witness :
    ((sampleId.UnmarshalText longHeadInput).2 ≠ none ∧
      (sampleId.UnmarshalText longHeadInput).1 = sampleId) ∧
    ((sampleId.UnmarshalBinary (zeros 19)).2 ≠ none ∧
      (sampleId.UnmarshalBinary (zeros 19)).1 = sampleId) ∧
    ((sampleId.Scan (ScanSrc.bytes (zeros 37))).2 ≠ none ∧
      (sampleId.Scan (ScanSrc.bytes (zeros 37))).1 = sampleId) :=
  ⟨⟨by decide,
      (C19_atomic_failure sampleId longHeadInput (ScanSrc.bytes (zeros 37)) "int").1
        (by decide)⟩,
    ⟨by decide,
      (C19_atomic_failure sampleId (zeros 19) (ScanSrc.bytes (zeros 37)) "int").2.1
        (by decide)⟩,
    ⟨by decide,
      (C19_atomic_failure sampleId (zeros 19) (ScanSrc.bytes (zeros 37)) "int").2.2.1
        (by decide)⟩⟩

/-! ## The all-`1` strings of the test table -/

theorem Parse_never_errMaxSize (s : List Byte) : (Parse s).2 ≠ some Error.errMaxSize := by
  rcases Parse_cases s with ⟨_, e⟩ | ⟨_, _, _, e⟩ | ⟨_, _, _, _, e⟩ | ⟨_, _, _, _, e, _⟩
  · rw [e]; intro h; cases h
  · rw [e]; intro h; cases h
  · rw [e]; intro h; cases h
  · rw [e]; intro h; cases h

/-- C20, as stated, fails: `Parse` returns no error for the string of 36 characters `1`
and none for the string of 37 characters `1`. -/
theorem C20_counterexample :
    (Parse (ones 36)).2 = none ∧ (Parse (ones 37)).2 = none := by
  decide

/-- C20, amended. `Parse` accepts the all-`1` strings of the test table: the 27
characters `1` decode to the KSUID `onesKsuid`; `Parse` of the string of 36 characters
`1` returns no error and the PKSUID made of nine bytes `1`, seven zero bytes and that
KSUID; `Parse` of the string of 37 characters `1` returns no error and the PKSUID made
of ten bytes `1`, six zero bytes and that KSUID; `String()` of either result is the
input; and `Parse` returns the greater-than-maximum-size error `errMaxSize` for no
input. -/
theorem C20_parse_ones :
    ksuid.Parse (ones 27) = .ok onesKsuid ∧
    (Parse (ones 36)).2 = none ∧
    (Parse (ones 36)).1.bytes = ones 9 ++ zeros 7 ++ onesKsuid.bytes ∧
    (Parse (ones 36)).1.String = ones 36 ∧
    (Parse (ones 37)).2 = none ∧
    (Parse (ones 37)).1.bytes = ones 10 ++ zeros 6 ++ onesKsuid.bytes ∧
    (Parse (ones 37)).1.String = ones 37 ∧
    (∀ s : List Byte, (Parse s).2 ≠ some Error.errMaxSize) := by
  refine ⟨rfl, by decide, by decide, by decide, by decide, by decide, by decide,
    Parse_never_errMaxSize⟩

end Pksuid
